import Mathlib

/-!
Verification of the xMap Source Map v3 codec and query engine.

The TypeScript sources are shallowly embedded: JS strings are modelled as
`List Char`, JS numbers as `Int` (exact within the double range used here),
and the 32-bit coercions performed by JS bitwise operators (`|`, `&`, `<<`,
`>>`, `>>>`) are made explicit through `toUint32` / `toInt32`.  The one JS
value outside `Int` that the mapping codec can actually produce is `NaN`
(from reading `deltas[0]` of an empty delta array); it is modelled by an
`Option Int` on the single field that can carry it (`generatedColumn`).
-/

set_option maxRecDepth 4096

/-- JS `ToUint32`: the argument reduced modulo 2^32, as a natural number. -/
def toUint32 (x : Int) : Nat := (x % (2 : Int) ^ 32).toNat

/-- JS `ToInt32`: the argument reduced modulo 2^32 into [-2^31, 2^31). -/
def toInt32 (x : Int) : Int :=
  let u := x % (2 : Int) ^ 32
  if u < 2 ^ 31 then u else u - 2 ^ 32

/-- JS bitwise OR `a | b` (operands coerced to 32 bits). -/
def jsOr (a b : Int) : Int := toInt32 (toUint32 a ||| toUint32 b : Nat)

/-- JS bitwise AND `a & b` (operands coerced to 32 bits). -/
def jsAnd (a b : Int) : Int := toInt32 (toUint32 a &&& toUint32 b : Nat)

/-- JS left shift `a << n` (32-bit, shift count taken mod 32). -/
def jsShl (a : Int) (n : Nat) : Int := toInt32 ((toUint32 a <<< (n % 32) : Nat) : Int)

/-- JS sign-propagating right shift `a >> n`: arithmetic shift, i.e. floor
division of the 32-bit signed value by `2 ^ (n % 32)`. -/
def jsShrS (a : Int) (n : Nat) : Int := Int.fdiv (toInt32 a) ((2 : Int) ^ (n % 32))

/-- JS unsigned right shift `a >>> n`. -/
def jsShrU (a : Int) (n : Nat) : Nat := toUint32 a >>> (n % 32)

/-- Base64 alphabet of the VLQ codec (`BASE64` in `base64.component`). -/
def BASE64 : List Char :=
  "ABCDEFGHIJKLMNOPQRSTUVWXYZabcdefghijklmnopqrstuvwxyz0123456789+/".data

/-- Indexing into `BASE64` (the code only ever indexes with values < 64). -/
def b64Char (n : Nat) : Char := BASE64.getD n 'A'

/-- The `DECODE` lookup table of `base64.component`: a valid Base64
character maps to its 6-bit value, any other character code maps to 255. -/
def decodeB64 (c : Char) : Nat :=
  if c.toNat < 128 then
    (if BASE64.indexOf c < 64 then BASE64.indexOf c else 255)
  else 255

/-- Loop body of `encodeVLQ`.  After the first `vlq >>>= 5` the working
value is the unsigned 32-bit reinterpretation of `vlq`, so the whole
do-while loop acts on `toUint32 vlq`; the first argument is fuel, always
called with more fuel than the chunk count so the `0` case is dead code. -/
def encVLQfuel : Nat → Nat → List Char
  | 0, _ => []
  | fuel + 1, u =>
    let chunk := u &&& 31
    let u2 := u >>> 5
    b64Char (if u2 > 0 then chunk ||| 32 else chunk) ::
      (if u2 > 0 then encVLQfuel fuel u2 else [])

/-- `encodeVLQ` of `base64.component`: sign bit into bit 0, then 5-bit
chunks least-significant first, continuation bit 0x20 on all but the last.
The sign transform is `((-value) * 2) | 1` resp. `value * 2` exactly as in
the source (the `| 1` coerces through 32 bits). -/
def encodeVLQ (value : Int) : List Char :=
  let vlq : Int := if value < 0 then jsOr ((-value) * 2) 1 else value * 2
  encVLQfuel (toUint32 vlq + 1) (toUint32 vlq)

/-- `encodeArrayVLQ`: concatenation of the individual encodings. -/
def encodeArrayVLQ (values : List Int) : List Char :=
  (values.map encodeVLQ).flatten

/-- Error message thrown by `decodeVLQ` on an invalid character (the source
additionally wraps the character in single quotes). -/
def vlqInvalidCharMsg (c : Char) (i : Nat) : String :=
  "Invalid Base64 character: " ++ String.mk [c] ++ " at index " ++ toString i

/-- Error message thrown by `decodeVLQ` on a trailing continuation bit. -/
def vlqIncompleteMsg : String := "Unexpected end of VLQ input: incomplete sequence"

/-- The emission step of `decodeVLQ`: sign bit in bit 0, magnitude above
(`value & 1 ? -(value >> 1) : value >> 1`, with JS 32-bit semantics). -/
def vlqEmit (value : Int) : Int :=
  if jsAnd value 1 ≠ 0 then -(jsShrS value 1) else jsShrS value 1

/-- Loop of `decodeVLQ`: walks the characters carrying the accumulator
`value`, the current `shift` and the character index `i`.  `value` grows by
`(digit & 0x1f) << shift` (a 32-bit JS shift); a chunk without the 0x20
continuation bit emits one signed integer and resets the state. -/
def decodeVLQgo : List Char → Int → Nat → Nat → Except String (List Int)
  | [], _, shift, _ =>
    if shift > 0 then .error vlqIncompleteMsg else .ok []
  | c :: cs, value, shift, i =>
    let digit := decodeB64 c
    if digit = 255 then .error (vlqInvalidCharMsg c i)
    else
      let value2 := value + jsShl ((digit &&& 31 : Nat) : Int) shift
      if digit &&& 32 ≠ 0 then
        decodeVLQgo cs value2 (shift + 5) (i + 1)
      else
        (decodeVLQgo cs 0 0 (i + 1)).map (fun r => vlqEmit value2 :: r)

/-- `decodeVLQ` of `base64.component`. -/
def decodeVLQ (data : List Char) : Except String (List Int) :=
  decodeVLQgo data 0 0 0

example : encodeVLQ 0 = "A".data := by decide
example : encodeVLQ 1 = "C".data := by decide
example : encodeVLQ (-1) = "D".data := by decide
example : encodeVLQ 1000 = "w+B".data := by decide
example : encodeVLQ (-1000) = "x+B".data := by decide
example : encodeVLQ 2147483647 = "+/////D".data := by decide
example : encodeVLQ (-2147483647) = "//////D".data := by decide
example : decodeVLQ "w+B".data = .ok [1000] := rfl
example : decodeVLQ "ACDlBkBlB".data = .ok [0, 1, -1, -18, 18, -18] := rfl
example : decodeVLQ "g".data = .error vlqIncompleteMsg := rfl
example : decodeVLQ (encodeVLQ 1073741824) = .ok [-1073741824] := rfl
example : decodeVLQ (encodeVLQ (-2147483648)) = .ok [0] := rfl

deriving instance DecidableEq for Except

/-! ### Arithmetic facts about the 32-bit helpers -/

theorem toUint32_ofNat (n : Nat) (h : n < 2 ^ 32) : toUint32 n = n := by
  simp only [toUint32]
  omega

theorem toInt32_ofNat (n : Nat) (h : n < 2 ^ 31) : toInt32 n = n := by
  simp only [toInt32]
  split <;> omega

theorem and31_eq_mod (u : Nat) : u &&& 31 = u % 32 := by
  have h := Nat.and_pow_two_sub_one_eq_mod u 5
  norm_num at h
  exact h

theorem shr5_eq_div (u : Nat) : u >>> 5 = u / 32 := by
  have h := Nat.shiftRight_eq_div_pow u 5
  norm_num at h
  exact h

theorem two_mul_lor_one (m : Nat) : 2 * m ||| 1 = 2 * m + 1 := by
  apply Nat.eq_of_testBit_eq
  intro i
  rw [Nat.testBit_lor]
  rcases i with _ | i
  · have h1 : (2 * m) % 2 = 0 := by omega
    have h2 : (2 * m + 1) % 2 = 1 := by omega
    simp [Nat.testBit_zero, h1, h2]
  · have h1 : (2 * m) / 2 = m := by omega
    have h2 : (2 * m + 1) / 2 = m := by omega
    have h3 : (1 : Nat) / 2 = 0 := by omega
    simp [Nat.testBit_add_one, h1, h2, h3]

theorem and32_of_lt {u : Nat} (h : u < 32) : u &&& 32 = 0 := by
  interval_cases u <;> decide

theorem lor32_of_lt {c : Nat} (h : c < 32) : c ||| 32 = c + 32 := by
  interval_cases c <;> decide

theorem add32_and31 {c : Nat} (h : c < 32) : (c + 32) &&& 31 = c := by
  rw [and31_eq_mod]
  omega

theorem add32_and32 {c : Nat} (h : c < 32) : (c + 32) &&& 32 = 32 := by
  interval_cases c <;> decide

theorem decodeB64_b64Char : ∀ d < 64, decodeB64 (b64Char d) = d := by decide

theorem jsShl_small (d n : Nat) (h : d * 2 ^ n < 2 ^ 31) :
    jsShl (d : Int) n = ((d * 2 ^ n : Nat) : Int) := by
  rcases Nat.eq_zero_or_pos d with hd | hd
  · subst hd
    simp only [jsShl, toUint32, toInt32]
    norm_num
  · have h2n : 2 ^ n < 2 ^ 31 := by
      calc 2 ^ n = 1 * 2 ^ n := (one_mul _).symm
      _ ≤ d * 2 ^ n := Nat.mul_le_mul_right _ hd
      _ < 2 ^ 31 := h
    have hn : n < 31 := by
      by_contra hc
      exact absurd (Nat.pow_le_pow_right (by norm_num) (Nat.le_of_not_lt hc)) (Nat.not_le_of_lt h2n)
    have hmod : n % 32 = n := Nat.mod_eq_of_lt (by omega)
    have hdlt : d < 2 ^ 32 := by
      have : d ≤ d * 2 ^ n := Nat.le_mul_of_pos_right _ (Nat.pos_pow_of_pos n (by norm_num))
      omega
    simp only [jsShl, toUint32_ofNat d hdlt, hmod, Nat.shiftLeft_eq]
    exact_mod_cast toInt32_ofNat _ (by omega)

/-! ### VLQ round-trip -/

theorem decode_encVLQ_append (fuel : Nat) :
    ∀ (u : Nat) (rest : List Char) (value : Int) (shift i : Nat),
    u < fuel → u * 2 ^ shift < 2 ^ 31 →
    decodeVLQgo (encVLQfuel fuel u ++ rest) value shift i
      = (decodeVLQgo rest 0 0 (i + (encVLQfuel fuel u).length)).map
          (fun r => vlqEmit (value + ((u * 2 ^ shift : Nat) : Int)) :: r) := by
  induction fuel with
  | zero => intro u _ _ _ _ h; omega
  | succ fuel ih =>
    intro u rest value shift i hu hrange
    have hchunk_lt : u &&& 31 < 32 := by rw [and31_eq_mod]; omega
    have hchunk_le : u &&& 31 ≤ u := by rw [and31_eq_mod]; omega
    have hchunk_range : (u &&& 31) * 2 ^ shift < 2 ^ 31 :=
      Nat.lt_of_le_of_lt (Nat.mul_le_mul_right _ hchunk_le) hrange
    rcases Nat.eq_zero_or_pos (u >>> 5) with h2 | h2
    · -- final chunk: u < 32, no continuation bit
      have hu32 : u < 32 := by
        rw [shr5_eq_div] at h2
        omega
      have hcu : u &&& 31 = u := by rw [and31_eq_mod]; omega
      have hdig := decodeB64_b64Char (u &&& 31) (by omega)
      have henc : encVLQfuel (fuel + 1) u = [b64Char (u &&& 31)] := by
        simp [encVLQfuel, h2]
      have hand31 : (u &&& 31) &&& 31 = u &&& 31 := by
        rw [and31_eq_mod (u &&& 31), Nat.mod_eq_of_lt hchunk_lt]
      rw [henc, List.singleton_append]
      simp only [decodeVLQgo, hdig, hand31]
      rw [if_neg (show ¬(u &&& 31 = 255) by omega)]
      rw [if_neg (show ¬((u &&& 31) &&& 32 ≠ 0) by rw [and32_of_lt hchunk_lt]; omega)]
      rw [jsShl_small _ _ hchunk_range, hcu]
      simp
    · -- continuation chunk
      have hu32 : 32 ≤ u := by
        rw [shr5_eq_div] at h2
        by_contra hc
        rw [Nat.div_eq_of_lt (by omega)] at h2
        omega
      have hc64 : (u &&& 31) ||| 32 = (u &&& 31) + 32 := lor32_of_lt hchunk_lt
      have hdig := decodeB64_b64Char ((u &&& 31) ||| 32) (by omega)
      have henc : encVLQfuel (fuel + 1) u
          = b64Char ((u &&& 31) ||| 32) :: encVLQfuel fuel (u >>> 5) := by
        simp [encVLQfuel, h2]
      rw [henc, List.cons_append]
      simp only [decodeVLQgo, hdig]
      rw [hc64]
      rw [if_neg (show ¬((u &&& 31) + 32 = 255) by omega)]
      rw [add32_and31 hchunk_lt]
      rw [if_pos (show ((u &&& 31) + 32) &&& 32 ≠ 0 by rw [add32_and32 hchunk_lt]; omega)]
      have hdivlt : u >>> 5 < fuel := by
        rw [shr5_eq_div] at h2 ⊢
        have : u / 32 < u := Nat.div_lt_self (by omega) (by norm_num)
        omega
      have hdivrange : (u >>> 5) * 2 ^ (shift + 5) ≤ u * 2 ^ shift := by
        rw [shr5_eq_div, pow_add]
        calc u / 32 * (2 ^ shift * 2 ^ 5) = u / 32 * 32 * 2 ^ shift := by ring
        _ ≤ u * 2 ^ shift := Nat.mul_le_mul_right _ (Nat.div_mul_le_self u 32)
      rw [jsShl_small _ _ hchunk_range]
      rw [ih (u >>> 5) rest (value + (((u &&& 31) * 2 ^ shift : Nat) : Int)) (shift + 5) (i + 1)
        hdivlt (by omega)]
      have hnat : (u &&& 31) * 2 ^ shift + (u >>> 5) * 2 ^ (shift + 5) = u * 2 ^ shift := by
        rw [and31_eq_mod, shr5_eq_div, pow_add]
        have hsum : u % 32 + u / 32 * 2 ^ 5 = u := by omega
        calc u % 32 * 2 ^ shift + u / 32 * (2 ^ shift * 2 ^ 5)
            = (u % 32 + u / 32 * 2 ^ 5) * 2 ^ shift := by ring
          _ = u * 2 ^ shift := by rw [hsum]
      have harith : value + (((u &&& 31) * 2 ^ shift : Nat) : Int)
            + (((u >>> 5) * 2 ^ (shift + 5) : Nat) : Int)
          = value + ((u * 2 ^ shift : Nat) : Int) := by
        calc value + (((u &&& 31) * 2 ^ shift : Nat) : Int)
              + (((u >>> 5) * 2 ^ (shift + 5) : Nat) : Int)
            = value + (((u &&& 31) * 2 ^ shift + (u >>> 5) * 2 ^ (shift + 5) : Nat) : Int) := by
              push_cast
              ring
          _ = value + ((u * 2 ^ shift : Nat) : Int) := by rw [hnat]
      rw [harith]
      congr 2
      simp only [List.length_cons]
      omega

/-- The unsigned magnitude actually walked by the encoder loop for an
in-range input: `2|n|` with the sign in bit 0. -/
def vlqNat (n : Int) : Nat := 2 * n.natAbs + if n < 0 then 1 else 0

theorem and1_eq_mod (u : Nat) : u &&& 1 = u % 2 := Nat.and_one_is_mod u

theorem toUint32_vlq (n : Int) (h : n.natAbs ≤ 2 ^ 30 - 1) :
    toUint32 (if n < 0 then jsOr ((-n) * 2) 1 else n * 2) = vlqNat n := by
  rcases lt_or_le n 0 with hn | hn
  · rw [if_pos hn]
    have habs : ((-n) * 2 : Int) = ((2 * n.natAbs : Nat) : Int) := by
      omega
    have hor : jsOr ((-n) * 2) 1 = ((2 * n.natAbs + 1 : Nat) : Int) := by
      unfold jsOr
      rw [habs, toUint32_ofNat _ (by omega)]
      have h1 : toUint32 1 = 1 := by norm_num [toUint32]
      rw [h1, two_mul_lor_one]
      exact toInt32_ofNat _ (by omega)
    rw [hor, toUint32_ofNat _ (by omega)]
    simp only [vlqNat, if_pos hn]
  · rw [if_neg (by omega)]
    have habs : (n * 2 : Int) = ((2 * n.natAbs : Nat) : Int) := by
      omega
    rw [habs, toUint32_ofNat _ (by omega)]
    simp only [vlqNat, if_neg (by omega : ¬n < 0)]
    omega

theorem encodeVLQ_eq_fuel (n : Int) (h : n.natAbs ≤ 2 ^ 30 - 1) :
    encodeVLQ n = encVLQfuel (vlqNat n + 1) (vlqNat n) := by
  simp only [encodeVLQ]
  rw [toUint32_vlq n h]

theorem int_fdiv_two_ofNat (m : Nat) : Int.fdiv (m : Int) 2 = ((m / 2 : Nat) : Int) := by
  rcases m with _ | m
  · rfl
  · rfl

theorem vlqEmit_vlqNat (n : Int) (h : n.natAbs ≤ 2 ^ 30 - 1) :
    vlqEmit ((vlqNat n : Nat) : Int) = n := by
  have hlt : vlqNat n < 2 ^ 31 := by unfold vlqNat; split <;> omega
  have hand : jsAnd ((vlqNat n : Nat) : Int) 1 = ((vlqNat n % 2 : Nat) : Int) := by
    unfold jsAnd
    rw [toUint32_ofNat _ (by omega)]
    have h1 : toUint32 1 = 1 := by norm_num [toUint32]
    rw [h1, and1_eq_mod]
    exact toInt32_ofNat _ (by omega)
  have hshr : jsShrS ((vlqNat n : Nat) : Int) 1 = ((vlqNat n / 2 : Nat) : Int) := by
    unfold jsShrS
    rw [toInt32_ofNat _ hlt]
    have h2 : ((2 : Int) ^ (1 % 32 : Nat)) = 2 := by norm_num
    rw [h2, int_fdiv_two_ofNat]
  rcases lt_or_le n 0 with hn | hn
  · have hv : vlqNat n = 2 * n.natAbs + 1 := by simp [vlqNat, hn]
    have hmod : vlqNat n % 2 = 1 := by omega
    have hdiv : vlqNat n / 2 = n.natAbs := by omega
    rw [vlqEmit, hand, hshr, hmod, hdiv]
    rw [if_pos (by norm_num)]
    omega
  · have hv : vlqNat n = 2 * n.natAbs := by simp [vlqNat]; omega
    have hmod : vlqNat n % 2 = 0 := by omega
    have hdiv : vlqNat n / 2 = n.natAbs := by omega
    rw [vlqEmit, hand, hshr, hmod, hdiv]
    rw [if_neg (by norm_num)]
    omega

theorem decodeVLQgo_encodeVLQ_append (n : Int) (h : n.natAbs ≤ 2 ^ 30 - 1)
    (rest : List Char) (i : Nat) :
    decodeVLQgo (encodeVLQ n ++ rest) 0 0 i
      = (decodeVLQgo rest 0 0 (i + (encodeVLQ n).length)).map (fun r => n :: r) := by
  have hlt : vlqNat n < 2 ^ 31 := by unfold vlqNat; split <;> omega
  rw [encodeVLQ_eq_fuel n h]
  rw [decode_encVLQ_append (vlqNat n + 1) (vlqNat n) rest 0 0 i (by omega)
    (by simpa using hlt)]
  have hemit : (0 : Int) + ((vlqNat n * 2 ^ 0 : Nat) : Int) = ((vlqNat n : Nat) : Int) := by
    norm_num
  rw [hemit, vlqEmit_vlqNat n h]

theorem decodeVLQgo_encodeArrayVLQ (xs : List Int) :
    ∀ i, (∀ x ∈ xs, x.natAbs ≤ 2 ^ 30 - 1) →
    decodeVLQgo (encodeArrayVLQ xs) 0 0 i = .ok xs := by
  induction xs with
  | nil =>
    intro i _
    simp [encodeArrayVLQ, decodeVLQgo]
  | cons x xs ihx =>
    intro i hxs
    have hx := hxs x (by simp)
    have henc : encodeArrayVLQ (x :: xs) = encodeVLQ x ++ encodeArrayVLQ xs := by
      simp [encodeArrayVLQ]
    rw [henc, decodeVLQgo_encodeVLQ_append x hx]
    rw [ihx _ (fun y hy => hxs y (by simp [hy]))]
    rfl

/-- C1, counterexample: the claimed range `[-2^31, 2^31 - 1]` is too wide.
At `n = 2^30` (inside that range) the decoder's 32-bit `<< shift` wraps and
the round-trip returns `[-2^30]` instead of `[2^30]`. -/
theorem vlq_roundtrip_out_of_range :
    decodeVLQ (encodeVLQ 1073741824) = .ok [-1073741824] ∧
    decodeVLQ (encodeVLQ 1073741824) ≠ .ok [(1073741824 : Int)] := by
  constructor
  · rfl
  · intro hcontra
    rw [show decodeVLQ (encodeVLQ 1073741824) = Except.ok [(-1073741824 : Int)] from rfl]
      at hcontra
    simp at hcontra

/-- C1 (amended): VLQ integer round-trip on the range the 32-bit decoder
arithmetic actually supports, `|n| ≤ 2^30 - 1`: `decodeVLQ (encodeVLQ n)`
is `[n]`, and `decodeVLQ (encodeArrayVLQ xs)` recovers `xs` for every
finite sequence with entries in that range. -/
theorem vlq_roundtrip_inrange :
    (∀ n : Int, n.natAbs ≤ 2 ^ 30 - 1 → decodeVLQ (encodeVLQ n) = .ok [n]) ∧
    (∀ xs : List Int, (∀ x ∈ xs, x.natAbs ≤ 2 ^ 30 - 1) →
      decodeVLQ (encodeArrayVLQ xs) = .ok xs) := by
  constructor
  · intro n h
    have happ := decodeVLQgo_encodeVLQ_append n h [] 0
    rw [List.append_nil] at happ
    rw [decodeVLQ, happ]
    rfl
  · intro xs h
    exact decodeVLQgo_encodeArrayVLQ xs 0 h

/-- C1, witness: the amended round-trip applied to a concrete sequence that
includes both extremes of the supported range. -/
theorem vlq_roundtrip_inrange_witness :
    decodeVLQ (encodeArrayVLQ [0, 1, -1, 1000, -1000, 1073741823, -1073741823])
      = .ok [0, 1, -1, 1000, -1000, 1073741823, -1073741823] :=
  vlq_roundtrip_inrange.2 _ (by decide)

/-! ### Segment component (`segment.component`) -/

/-- `Bias` of `segment.component`: `BOUND` = exact only, `LOWER_BOUND` /
`UPPER_BOUND` = nearest below / above on a miss. -/
inductive Bias where
  | BOUND
  | LOWER_BOUND
  | UPPER_BOUND
deriving DecidableEq

/-- `SegmentInterface`: a fully resolved, 1-based mapping segment.  JS
numbers are `Int`; `nameIndex` is `Option Int` (`none` = `null`).
`generatedColumn` is `Option Int` with `none` standing for the `NaN` that
a segment decoded from an empty delta vector carries (see `decodeSegment`);
it is the only segment field the codec can ever make non-finite. -/
structure Segment where
  line : Int
  column : Int
  nameIndex : Option Int
  sourceIndex : Int
  generatedLine : Int
  generatedColumn : Option Int
deriving DecidableEq

/-- `VLQOffsetInterface`: the running 0-based delta state (mutated in place
by the source; threaded explicitly here). -/
structure VLQOffset where
  line : Int
  column : Int
  nameIndex : Int
  sourceIndex : Int
  generatedLine : Int
  generatedColumn : Option Int
deriving DecidableEq

/-- `createOffset(namesOffset, sourceOffset)`. -/
def createOffset (namesOffset sourceOffset : Int) : VLQOffset :=
  { line := 0, column := 0, nameIndex := namesOffset, sourceIndex := sourceOffset,
    generatedLine := 0, generatedColumn := some 0 }

/-- `decodeSegment`: apply one decoded delta vector to the running offset,
returning the updated offset and the resolved 1-based segment.  `deltas[0]`
read from an empty vector is JS `undefined` and `generatedColumn +=
undefined` poisons that accumulator to `NaN` (`none` here); the other
deltas fall back to 0 via `?? 0`, and `nameIndex` is advanced and emitted
only when `deltas[4]` is present. -/
def decodeSegment (offset : VLQOffset) (deltas : List Int) : VLQOffset × Segment :=
  let genColDelta := deltas.head?
  let srcIdxDelta := deltas.getD 1 0
  let srcLineDelta := deltas.getD 2 0
  let srcColDelta := deltas.getD 3 0
  let nameIdxDelta := deltas.get? 4
  let offset' : VLQOffset :=
    { offset with
      line := offset.line + srcLineDelta
      column := offset.column + srcColDelta
      sourceIndex := offset.sourceIndex + srcIdxDelta
      generatedColumn :=
        match offset.generatedColumn, genColDelta with
        | some g, some d => some (g + d)
        | _, _ => none
      nameIndex :=
        match nameIdxDelta with
        | some d => offset.nameIndex + d
        | none => offset.nameIndex }
  (offset',
    { line := offset'.line + 1
      column := offset'.column + 1
      generatedLine := offset'.generatedLine + 1
      generatedColumn := offset'.generatedColumn.map (· + 1)
      sourceIndex := offset'.sourceIndex
      nameIndex :=
        match nameIdxDelta with
        | some _ => some offset'.nameIndex
        | none => none })

/-- The delta vector assembled by `encodeSegment`: 4 entries, plus a 5th
exactly when the segment carries a `nameIndex`.  Entries are `Option Int`
because a `NaN` `generatedColumn` (on either side) propagates into
`deltas[0]`. -/
def encodeSegmentDeltas (offset : VLQOffset) (seg : Segment) : List (Option Int) :=
  let adjGenColumn := seg.generatedColumn.map (· - 1)
  let delta0 : Option Int :=
    match adjGenColumn, offset.generatedColumn with
    | some a, some b => some (a - b)
    | _, _ => none
  [delta0, some (seg.sourceIndex - offset.sourceIndex),
      some ((seg.line - 1) - offset.line), some ((seg.column - 1) - offset.column)]
    ++ (match seg.nameIndex with
        | some nameIdx => [some (nameIdx - offset.nameIndex)]
        | none => [])

/-- `encodeVLQ` on a possibly-`NaN` value: on `NaN` the encoder loop runs
once with `NaN & 0x1f` and `NaN >>> 5` both 0, emitting `"A"`. -/
def encodeVLQNum : Option Int → List Char
  | none => ['A']
  | some v => encodeVLQ v

/-- `encodeSegment`: emit the Base64 VLQ string for the delta vector and
advance the offset to the segment's 0-based coordinates (`nameIndex` only
when present). -/
def encodeSegment (offset : VLQOffset) (seg : Segment) : VLQOffset × List Char :=
  let deltas := encodeSegmentDeltas offset seg
  let offset' : VLQOffset :=
    { offset with
      generatedColumn := seg.generatedColumn.map (· - 1)
      sourceIndex := seg.sourceIndex
      line := seg.line - 1
      column := seg.column - 1
      nameIndex :=
        match seg.nameIndex with
        | some nameIdx => nameIdx
        | none => offset.nameIndex }
  (offset', (deltas.map encodeVLQNum).flatten)

/-- `validateSegment`: positional fields must be finite and at least 1;
`sourceIndex` must be finite and `nameIndex` finite or null.  In the
integer embedding the only representable non-finite value is the `NaN`
`generatedColumn` (`none`), so the `Number.isFinite` checks on the other
fields are vacuous; the source appends the received value to each message,
omitted here. -/
def validateSegment (segment : Segment) : Except String Unit :=
  if segment.line < 1 then
    .error ("Invalid segment: line must be a finite number >= 1")
  else if segment.column < 1 then
    .error ("Invalid segment: column must be a finite number >= 1")
  else if segment.generatedLine < 1 then
    .error ("Invalid segment: generatedLine must be a finite number >= 1")
  else
    match segment.generatedColumn with
    | none => .error ("Invalid segment: generatedColumn must be a finite number >= 1")
    | some g =>
      if g < 1 then
        .error ("Invalid segment: generatedColumn must be a finite number >= 1")
      else .ok ()

/-- The predicate enforced by `validateSegment`, as a Boolean. -/
def isValidSegment (seg : Segment) : Bool :=
  decide (1 ≤ seg.line) && decide (1 ≤ seg.column) && decide (1 ≤ seg.generatedLine) &&
    (match seg.generatedColumn with
     | some g => decide (1 ≤ g)
     | none => false)

theorem validateSegment_ok_iff (seg : Segment) :
    validateSegment seg = .ok () ↔ isValidSegment seg = true := by
  unfold validateSegment isValidSegment
  rcases seg with ⟨line, column, nameIndex, sourceIndex, generatedLine, generatedColumn⟩
  rcases generatedColumn with _ | g <;>
    simp only [] <;> split_ifs <;> simp_all

/-! ### Mapping store (`MappingService` of `mapping.service`) -/

/-- `SourceMappingType`: one entry per generated line, `none` for a line
without mappings (a `;;` frame), otherwise the ordered segment list. -/
abbrev SourceMappingType := List (Option (List Segment))

/-- JS `String.prototype.split` with a single-character separator: always
returns at least one (possibly empty) piece, and one extra piece per
separator occurrence. -/
def jsSplit (sep : Char) : List Char → List (List Char)
  | [] => [[]]
  | c :: cs =>
    let r := jsSplit sep cs
    if c = sep then [] :: r
    else (c :: r.headD []) :: r.tail

/-- JS `Array.prototype.join` with a single-character separator. -/
def jsJoin (sep : Char) : List (List Char) → List Char
  | [] => []
  | [p] => p
  | p :: q :: rest => p ++ sep :: jsJoin sep (q :: rest)

/-- The `offsets` record of `MappingService` (`SegmentsOffsetsInterface`). -/
structure SegmentsOffsets where
  line : Int
  name : Int
  sources : Int
deriving DecidableEq

/-- The state of a `MappingService` instance: the decoded `lines` plus the
rebase `offsets` last installed by `decode`. -/
structure MappingService where
  lines : SourceMappingType
  offsets : SegmentsOffsets
deriving DecidableEq

/-- A freshly constructed `MappingService`. -/
def MappingService.empty : MappingService :=
  { lines := [], offsets := { line := 0, name := 0, sources := 0 } }

/-- Encoding loop over one frame's segments (`encodeSourceMapping`'s inner
loop): thread the offset through `encodeSegment`. -/
def encodeSegmentsGo (offset : VLQOffset) : List Segment → VLQOffset × List (List Char)
  | [] => (offset, [])
  | seg :: rest =>
    let p := encodeSegment offset seg
    let q := encodeSegmentsGo p.1 rest
    (q.1, p.2 :: q.2)

/-- Encoding loop over the stored lines (`encodeSourceMapping`'s outer
loop): `generatedColumn` resets to 0 at every line, a `null` line encodes
to the empty string, and segment strings are joined with `,`. -/
def encodeSourceMappingGo (offset : VLQOffset) : SourceMappingType → List (List Char)
  | [] => []
  | none :: rest => [] :: encodeSourceMappingGo { offset with generatedColumn := some 0 } rest
  | some segs :: rest =>
    let p := encodeSegmentsGo { offset with generatedColumn := some 0 } segs
    jsJoin ',' p.2 :: encodeSourceMappingGo p.1 rest

/-- `MappingService.encodeSourceMapping`: encode every line and join with
`;`.  The stored `generatedLine` field is never read. -/
def encodeSourceMapping (sourceMapping : SourceMappingType) : List Char :=
  jsJoin ';' (encodeSourceMappingGo (createOffset 0 0) sourceMapping)

/-- `MappingService.encode`. -/
def MappingService.encode (svc : MappingService) : List Char :=
  encodeSourceMapping svc.lines

/-- One character of `/^[a-zA-Z0-9+\/,;]+$/`. -/
def isMappingChar (c : Char) : Bool :=
  ('a' ≤ c && c ≤ 'z') || ('A' ≤ c && c ≤ 'Z') || ('0' ≤ c && c ≤ '9') ||
    c = '+' || c = '/' || c = ',' || c = ';'

/-- `MappingService.validateSourceMappingString`: the whole string must
match `/^[a-zA-Z0-9+\/,;]+$/` (so the empty string is invalid). -/
def validateSourceMappingString (raw : List Char) : Bool :=
  !raw.isEmpty && raw.all isMappingChar

/-- Error thrown by `decodeSourceMappingString` on a malformed string. -/
def invalidMappingsMsg : String :=
  "Invalid mappings string: contains characters outside the VLQ alphabet."

/-- The `Error decoding mappings at line ${i + 1}: ...` wrapper (both
decode paths re-throw with the 1-based frame index). -/
def lineErrMsg (i : Nat) (msg : String) : String :=
  "Error decoding mappings at line " ++ toString (i + 1) ++ ": " ++ msg

/-- Inner loop of `decodeSourceMappingString`: decode each raw segment of a
frame through `decodeVLQ` and `decodeSegment`, adding `lineOffset` to
`generatedLine` when `applyLineOffset` is set. -/
def decodeRawSegments (lineOffset : Int) (applyLineOffset : Bool) :
    VLQOffset → List (List Char) → Except String (VLQOffset × List Segment)
  | offset, [] => .ok (offset, [])
  | offset, raw :: rest =>
    match decodeVLQ raw with
    | .error e => .error e
    | .ok deltas =>
      let p := decodeSegment offset deltas
      let seg := if applyLineOffset
        then { p.2 with generatedLine := p.2.generatedLine + lineOffset }
        else p.2
      match decodeRawSegments lineOffset applyLineOffset p.1 rest with
      | .error e => .error e
      | .ok q => .ok (q.1, seg :: q.2)

/-- Outer loop of `decodeSourceMappingString`: one iteration per `;` frame,
pushing `none` for empty frames; on a decoding error the frames already
pushed remain (the source mutates `this.lines` in place). -/
def decodeMappingLinesGo (lineAppendOffset : Nat) (lineOffset : Int) (applyLineOffset : Bool)
    (offset : VLQOffset) (acc : SourceMappingType) :
    Nat → List (List Char) → Except String Unit × SourceMappingType
  | _, [] => (.ok (), acc)
  | i, encodedLine :: rest =>
    if encodedLine.isEmpty then
      decodeMappingLinesGo lineAppendOffset lineOffset applyLineOffset offset
        (acc ++ [none]) (i + 1) rest
    else
      let offset1 := { offset with
        generatedColumn := some 0
        generatedLine := (lineAppendOffset : Int) + (i : Int) }
      match decodeRawSegments lineOffset applyLineOffset offset1 (jsSplit ',' encodedLine) with
      | .error e => (.error (lineErrMsg i e), acc)
      | .ok p =>
        decodeMappingLinesGo lineAppendOffset lineOffset applyLineOffset p.1
          (acc ++ [some p.2]) (i + 1) rest

/-- `MappingService.decodeSourceMappingString`, acting on the current
`lines` (to which decoded frames are appended) with the three decode
offsets.  Returns the outcome together with the resulting `lines`: on the
up-front validation failure they are untouched, on a mid-string error the
already-pushed frames remain. -/
def decodeSourceMappingString (lines : SourceMappingType) (encodedMapping : List Char)
    (namesOffset sourcesOffset lineOffset : Int) :
    Except String Unit × SourceMappingType :=
  if !validateSourceMappingString encodedMapping then
    (.error invalidMappingsMsg, lines)
  else
    decodeMappingLinesGo lines.length lineOffset (decide (lineOffset ≠ 0))
      (createOffset namesOffset sourcesOffset) lines 0 (jsSplit ';' encodedMapping)

/-- Per-frame validation of `decodeSourceMappingArray`: the first failing
segment aborts with its error (the source validates and copies segments in
one loop; validation of segment `s` precedes any use of it). -/
def validateSegments : List Segment → Except String Unit
  | [] => .ok ()
  | seg :: rest =>
    match validateSegment seg with
    | .error e => .error e
    | .ok () => validateSegments rest

/-- Loop of `decodeSourceMappingArray`: `null` lines are pushed as-is; a
present line is validated, then copied with `namesOffset` applied to a
present `nameIndex`, `sourcesOffset` to `sourceIndex`, and the combined
`totalLineShift` to `generatedLine`. -/
def decodeArrayLinesGo (totalLineShift namesOffset sourcesOffset : Int)
    (acc : SourceMappingType) :
    Nat → SourceMappingType → Except String Unit × SourceMappingType
  | _, [] => (.ok (), acc)
  | i, none :: rest =>
    decodeArrayLinesGo totalLineShift namesOffset sourcesOffset (acc ++ [none]) (i + 1) rest
  | i, some lineSegments :: rest =>
    match validateSegments lineSegments with
    | .error e => (.error (lineErrMsg i e), acc)
    | .ok () =>
      let decoded := lineSegments.map (fun seg =>
        { seg with
          nameIndex :=
            match seg.nameIndex with
            | some nameIdx => some (nameIdx + namesOffset)
            | none => none
          sourceIndex := seg.sourceIndex + sourcesOffset
          generatedLine := seg.generatedLine + totalLineShift })
      decodeArrayLinesGo totalLineShift namesOffset sourcesOffset
        (acc ++ [some decoded]) (i + 1) rest

/-- `MappingService.decodeSourceMappingArray` on the current `lines`:
`totalLineShift` pre-combines the append position and `lineOffset`. -/
def decodeSourceMappingArray (lines : SourceMappingType) (sourceMapping : SourceMappingType)
    (namesOffset sourcesOffset lineOffset : Int) :
    Except String Unit × SourceMappingType :=
  decodeArrayLinesGo ((lines.length : Int) + lineOffset) namesOffset sourcesOffset
    lines 0 sourceMapping

/-- `MappingService.decode` for a string argument: installs the offsets,
then delegates to `decodeSourceMappingString`. -/
def MappingService.decodeString (svc : MappingService) (mapping : List Char)
    (namesOffset sourcesOffset lineOffset : Int) : Except String Unit × MappingService :=
  let p := decodeSourceMappingString svc.lines mapping namesOffset sourcesOffset lineOffset
  (p.1, { lines := p.2,
          offsets := { line := lineOffset, name := namesOffset, sources := sourcesOffset } })

/-- `MappingService.decode` for an array argument: installs the offsets,
then delegates to `decodeSourceMappingArray`. -/
def MappingService.decodeArray (svc : MappingService) (mapping : SourceMappingType)
    (namesOffset sourcesOffset lineOffset : Int) : Except String Unit × MappingService :=
  let p := decodeSourceMappingArray svc.lines mapping namesOffset sourcesOffset lineOffset
  (p.1, { lines := p.2,
          offsets := { line := lineOffset, name := namesOffset, sources := sourcesOffset } })

/-- JS `<` with a possibly-`NaN` left operand (`NaN < c` is false). -/
def ltNum (a : Option Int) (c : Int) : Bool :=
  match a with
  | some v => decide (v < c)
  | none => false

/-- JS `>` with a possibly-`NaN` left operand (`NaN > c` is false). -/
def gtNum (a : Option Int) (c : Int) : Bool :=
  match a with
  | some v => decide (v > c)
  | none => false

/-- Binary-search loop of `MappingService.getSegment`.  The JS loop runs
`low`/`high` with `while (low <= high)`; here `high1 = high + 1` keeps the
bounds in `Nat` and `mid = (low + high) >>> 1 = (low + high1 - 1) / 2`.
The first argument is fuel: every iteration strictly shrinks
`high1 - low`, so `segs.length + 1` (as passed by `getSegment`) is never
exhausted; the out-of-fuel branch returns `closest` like loop exit. -/
def bsearchGo (segs : List Segment) (generatedColumn : Int) (bias : Bias) :
    Nat → Nat → Nat → Option Segment → Option Segment
  | 0, _, _, closest => closest
  | fuel + 1, low, high1, closest =>
    if low < high1 then
      let mid := (low + high1 - 1) / 2
      match segs.get? mid with
      | none => none
      | some seg =>
        if ltNum seg.generatedColumn generatedColumn then
          bsearchGo segs generatedColumn bias fuel (mid + 1) high1
            (if bias = Bias.LOWER_BOUND then some seg else closest)
        else if gtNum seg.generatedColumn generatedColumn then
          bsearchGo segs generatedColumn bias fuel low mid
            (if bias = Bias.UPPER_BOUND then some seg else closest)
        else some seg
    else closest

/-- `MappingService.getSegment`: resolve the line (JS indexing yields
`undefined` for a negative or out-of-range index, and `!segments` also
catches a stored `null` frame and the empty list), then binary-search the
segment list by `generatedColumn`. -/
def MappingService.getSegment (svc : MappingService) (generatedLine generatedColumn : Int)
    (bias : Bias) : Option Segment :=
  let lineIndex : Int := generatedLine - svc.offsets.line - 1
  let segments : Option (List Segment) :=
    if lineIndex < 0 then none else svc.lines.getD lineIndex.toNat none
  match segments with
  | none => none
  | some segs =>
    if segs.length = 0 then none
    else bsearchGo segs generatedColumn bias (segs.length + 1) 0 segs.length none

/-- `dist < closestDist` where `closestDist` starts at `Infinity` (`none`). -/
def distLt (d : Int) (closestDist : Option Int) : Bool :=
  match closestDist with
  | none => true
  | some cd => decide (d < cd)

/-- Inner loop of `MappingService.getOriginalSegment` over one frame:
skip segments whose `sourceIndex`/`line` do not match, return an exact
column hit immediately (`.inl`), otherwise track the closest candidate
under the bias (`.inr` carries `closest`/`closestDist` forward). -/
def origSegsGo (sl sc si : Int) (bias : Bias) :
    List Segment → Option Segment → Option Int → Sum Segment (Option Segment × Option Int)
  | [], closest, closestDist => .inr (closest, closestDist)
  | seg :: rest, closest, closestDist =>
    if seg.sourceIndex ≠ si ∨ seg.line ≠ sl then
      origSegsGo sl sc si bias rest closest closestDist
    else if seg.column = sc then .inl seg
    else if bias = Bias.LOWER_BOUND then
      if seg.column < sc then
        if distLt (sc - seg.column) closestDist then
          origSegsGo sl sc si bias rest (some seg) (some (sc - seg.column))
        else origSegsGo sl sc si bias rest closest closestDist
      else origSegsGo sl sc si bias rest closest closestDist
    else if bias = Bias.UPPER_BOUND then
      if seg.column > sc then
        if distLt (seg.column - sc) closestDist then
          origSegsGo sl sc si bias rest (some seg) (some (seg.column - sc))
        else origSegsGo sl sc si bias rest closest closestDist
      else origSegsGo sl sc si bias rest closest closestDist
    else origSegsGo sl sc si bias rest closest closestDist

/-- Outer loop of `MappingService.getOriginalSegment` over the lines
(`null` frames are skipped). -/
def origLinesGo (sl sc si : Int) (bias : Bias) :
    SourceMappingType → Option Segment → Option Int → Option Segment
  | [], closest, _ => closest
  | none :: rest, closest, closestDist => origLinesGo sl sc si bias rest closest closestDist
  | some segs :: rest, closest, closestDist =>
    match origSegsGo sl sc si bias segs closest closestDist with
    | .inl seg => some seg
    | .inr p => origLinesGo sl sc si bias rest p.1 p.2

/-- `MappingService.getOriginalSegment`: exhaustive scan over all stored
segments by original position. -/
def MappingService.getOriginalSegment (svc : MappingService)
    (sourceLine sourceColumn sourceIndex : Int) (bias : Bias) : Option Segment :=
  origLinesGo sourceLine sourceColumn sourceIndex bias svc.lines none none

example :
    decodeSourceMappingString [] "AAAA".data 0 0 0
      = (.ok (), [some [⟨1, 1, none, 0, 1, some 1⟩]]) := by decide

example :
    (decodeSourceMappingString [] "AAAA;;;AADA;".data 0 0 0).2.length = 5 := by decide

example :
    (decodeSourceMappingString [] "AAAAE".data 3 0 0).2
      = [some [⟨1, 1, some 5, 0, 1, some 1⟩]] := by decide

example :
    encodeSourceMapping (decodeSourceMappingString [] "AAAA;AACA,AADA;AAGA;".data 0 0 0).2
      = "AAAA;AACA,AADA;AAGA;".data := by decide

example :
    decodeSourceMappingString [] "AAAA;A#A".data 0 0 0 = (.error invalidMappingsMsg, []) := by
  decide

example :
    (decodeSourceMappingString [] "AAAA;g".data 0 0 0).1
      = .error (lineErrMsg 1 vlqIncompleteMsg) := by decide

/-! ### C7: pre-validation of the mapping string -/

theorem validateSourceMappingString_false_of_bad (s : List Char)
    (h : s = [] ∨ ∃ c ∈ s, isMappingChar c = false) :
    validateSourceMappingString s = false := by
  rcases h with h | ⟨c, hc, hcv⟩
  · subst h
    rfl
  · unfold validateSourceMappingString
    have hall : s.all isMappingChar = false := by
      cases hb : s.all isMappingChar
      · rfl
      · have h2 := List.all_eq_true.mp hb c hc
        rw [hcv] at h2
        cases h2
    rw [hall]
    simp

/-- C7: an empty mapping string, or one containing any character outside
`[A-Za-z0-9+/,;]`, makes `decodeSourceMappingString` fail with the
validation error before any segment is produced: the stored lines are
returned exactly as they were. -/
theorem mapping_string_prevalidation (lines : SourceMappingType) (s : List Char)
    (namesOffset sourcesOffset lineOffset : Int)
    (h : s = [] ∨ ∃ c ∈ s, isMappingChar c = false) :
    decodeSourceMappingString lines s namesOffset sourcesOffset lineOffset
      = (.error invalidMappingsMsg, lines) := by
  unfold decodeSourceMappingString
  rw [validateSourceMappingString_false_of_bad s h]
  simp

/-- C7, witness: the empty string and a string containing `#`, decoded into
a store that already holds one line, error out leaving the store as-is. -/
theorem mapping_string_prevalidation_witness :
    decodeSourceMappingString [none] "".data 0 0 0 = (.error invalidMappingsMsg, [none]) ∧
    decodeSourceMappingString [none] "AAAA;A#A".data 0 0 0
      = (.error invalidMappingsMsg, [none]) := by
  constructor
  · exact mapping_string_prevalidation [none] "".data 0 0 0 (by decide)
  · exact mapping_string_prevalidation [none] "AAAA;A#A".data 0 0 0 (by decide)

/-! ### C4: where segment validation is enforced -/

/-- C4, counterexample: the string decode path performs no per-segment
validation.  Decoding the charset-valid string `"AADA"` (source-line delta
`-1`) succeeds and stores a segment with `line = 0`, which violates the
validation predicate (`line ≥ 1`). -/
theorem stored_segment_invalid_via_string :
    decodeSourceMappingString [] "AADA".data 0 0 0
      = (.ok (), [some [⟨0, 1, none, 0, 1, some 1⟩]]) ∧
    isValidSegment ⟨0, 1, none, 0, 1, some 1⟩ = false := by decide

theorem validateSegments_ok (l : List Segment) (h : validateSegments l = .ok ()) :
    ∀ seg ∈ l, isValidSegment seg = true := by
  induction l with
  | nil => intro seg hs; cases hs
  | cons s rest ih =>
    intro seg hs
    unfold validateSegments at h
    rcases hv : validateSegment s with e | u
    · rw [hv] at h; cases h
    · rw [hv] at h
      cases u
      rw [List.mem_cons] at hs
      rcases hs with hs | hs
      · subst hs
        exact (validateSegment_ok_iff seg).mp hv
      · exact ih h _ hs

theorem decodeArrayLinesGo_ok (sm : SourceMappingType) :
    ∀ (totalLineShift namesOffset sourcesOffset : Int) (acc : SourceMappingType) (i : Nat)
      (res : SourceMappingType),
    decodeArrayLinesGo totalLineShift namesOffset sourcesOffset acc i sm = (.ok (), res) →
    ∀ segs : List Segment, some segs ∈ sm → ∀ seg ∈ segs, isValidSegment seg = true := by
  induction sm with
  | nil =>
    intro _ _ _ _ _ _ _ segs hmem
    cases hmem
  | cons line rest ih =>
    intro tls nOff sOff acc i res hok segs hmem
    rw [List.mem_cons] at hmem
    rcases line with _ | lineSegments
    · unfold decodeArrayLinesGo at hok
      rcases hmem with hmem | hmem
      · cases hmem
      · exact ih tls nOff sOff (acc ++ [none]) (i + 1) res hok segs hmem
    · unfold decodeArrayLinesGo at hok
      rcases hv : validateSegments lineSegments with e | u
      · rw [hv] at hok
        cases hok
      · rw [hv] at hok
        cases u
        rcases hmem with hmem | hmem
        · rcases Option.some.injEq .. ▸ hmem with rfl
          exact validateSegments_ok segs hv
        · exact ih tls nOff sOff _ (i + 1) res hok segs hmem

/-- C4 (amended): validation is enforced only on the array decode path.
Whenever `decodeSourceMappingArray` succeeds, every segment of its input
satisfied the `validateSegment` predicate (checked before the offsets were
applied and the frame accepted); the string decode path stores segments
unvalidated (see the counterexample). -/
theorem decode_array_validates (lines sourceMapping : SourceMappingType)
    (namesOffset sourcesOffset lineOffset : Int) (res : SourceMappingType)
    (h : decodeSourceMappingArray lines sourceMapping namesOffset sourcesOffset lineOffset
      = (.ok (), res)) :
    ∀ segs : List Segment, some segs ∈ sourceMapping →
      ∀ seg ∈ segs, isValidSegment seg = true := by
  exact decodeArrayLinesGo_ok sourceMapping _ namesOffset sourcesOffset lines 0 res h

/-- C4, witness: a successful concrete array decode, and the validity of
the one input segment it accepted. -/
theorem decode_array_validates_witness :
    decodeSourceMappingArray [] [some [⟨1, 2, some 0, 0, 1, some 3⟩], none] 1 2 0
      = (.ok (), [some [⟨1, 2, some 1, 2, 1, some 3⟩], none]) ∧
    isValidSegment ⟨1, 2, some 0, 0, 1, some 3⟩ = true :=
  ⟨by decide,
    decode_array_validates [] [some [⟨1, 2, some 0, 0, 1, some 3⟩], none] 1 2 0
      [some [⟨1, 2, some 1, 2, 1, some 3⟩], none] (by decide)
      [⟨1, 2, some 0, 0, 1, some 3⟩] (by decide) ⟨1, 2, some 0, 0, 1, some 3⟩ (by decide)⟩

/-! ### C8: arity of an encoded segment -/

theorem encodeVLQNum_eq (o : Option Int) : encodeVLQNum o = encodeVLQ (o.getD 0) := by
  cases o
  · decide
  · rfl

theorem encodeSegment_string (offset : VLQOffset) (seg : Segment) :
    (encodeSegment offset seg).2
      = encodeArrayVLQ ((encodeSegmentDeltas offset seg).map (fun o => o.getD 0)) := by
  unfold encodeSegment encodeArrayVLQ
  simp only [List.map_map]
  congr 1
  apply List.map_congr_left
  intro o _
  exact encodeVLQNum_eq o

/-- C8: `encodeSegment` emits exactly 5 VLQ integers iff the segment has a
present `nameIndex` (including the value 0), and exactly 4 otherwise: the
delta vector has that length, and (whenever the deltas are in the decoder's
range, `NaN` entries reading back as 0) the emitted string decodes to that
many integers. -/
theorem encodeSegment_arity (offset : VLQOffset) (seg : Segment) :
    ((encodeSegmentDeltas offset seg).length = if seg.nameIndex.isSome then 5 else 4) ∧
    (seg.nameIndex = some 0 → (encodeSegmentDeltas offset seg).length = 5) ∧
    ((∀ d ∈ encodeSegmentDeltas offset seg, (d.getD 0).natAbs ≤ 2 ^ 30 - 1) →
      ∃ ints : List Int, decodeVLQ (encodeSegment offset seg).2 = .ok ints ∧
        ints.length = (if seg.nameIndex.isSome then 5 else 4)) := by
  have hlen : (encodeSegmentDeltas offset seg).length
      = if seg.nameIndex.isSome then 5 else 4 := by
    unfold encodeSegmentDeltas
    rcases seg.nameIndex with _ | nameIdx <;> simp
  refine ⟨hlen, ?_, ?_⟩
  · intro hzero
    rw [hlen, hzero]
    rfl
  · intro hrange
    refine ⟨(encodeSegmentDeltas offset seg).map (fun o => o.getD 0), ?_, ?_⟩
    · rw [encodeSegment_string]
      refine decodeVLQgo_encodeArrayVLQ _ 0 (fun x hx => ?_)
      rcases List.mem_map.mp hx with ⟨o, ho, rfl⟩
      exact hrange o ho
    · rw [List.length_map, hlen]

/-- C8, witness: a segment with `nameIndex = 0` (present) emits 5 integers,
one with `nameIndex = null` emits 4. -/
theorem encodeSegment_arity_witness :
    (encodeSegmentDeltas (createOffset 0 0) ⟨1, 1, some 0, 0, 1, some 1⟩).length = 5 ∧
    (encodeSegmentDeltas (createOffset 0 0) ⟨1, 1, none, 0, 1, some 1⟩).length = 4 ∧
    decodeVLQ (encodeSegment (createOffset 0 0) ⟨1, 1, some 0, 0, 1, some 1⟩).2
      = .ok [0, 0, 0, 0, 0] := by
  refine ⟨(encodeSegment_arity (createOffset 0 0) ⟨1, 1, some 0, 0, 1, some 1⟩).2.1 rfl, ?_, ?_⟩
  · have h := (encodeSegment_arity (createOffset 0 0) ⟨1, 1, none, 0, 1, some 1⟩).1
    simpa using h
  · decide

/-! ### C6: bias monotonicity of `getSegment` -/

theorem ltNum_not_gt {a : Option Int} {c : Int} (h : ltNum a c = true) :
    gtNum a c = false := by
  rcases a with _ | v
  · rfl
  · simp only [ltNum, decide_eq_true_eq] at h
    simp only [gtNum, decide_eq_false_iff_not]
    omega

theorem gtNum_not_lt {a : Option Int} {c : Int} (h : gtNum a c = true) :
    ltNum a c = false := by
  rcases a with _ | v
  · rfl
  · simp only [gtNum, decide_eq_true_eq] at h
    simp only [ltNum, decide_eq_false_iff_not]
    omega

theorem bsearchGo_succ (segs : List Segment) (c : Int) (bias : Bias)
    (fuel low high1 : Nat) (closest : Option Segment) :
    bsearchGo segs c bias (fuel + 1) low high1 closest
      = if low < high1 then
          match segs.get? ((low + high1 - 1) / 2) with
          | none => none
          | some seg =>
            if ltNum seg.generatedColumn c then
              bsearchGo segs c bias fuel ((low + high1 - 1) / 2 + 1) high1
                (if bias = Bias.LOWER_BOUND then some seg else closest)
            else if gtNum seg.generatedColumn c then
              bsearchGo segs c bias fuel low ((low + high1 - 1) / 2)
                (if bias = Bias.UPPER_BOUND then some seg else closest)
            else some seg
        else closest := rfl

theorem bsearchGo_floor_notGt (segs : List Segment) (c : Int) :
    ∀ (fuel low high1 : Nat) (closest : Option Segment),
    (∀ s, closest = some s → gtNum s.generatedColumn c = false) →
    ∀ r, bsearchGo segs c Bias.LOWER_BOUND fuel low high1 closest = some r →
    gtNum r.generatedColumn c = false := by
  intro fuel
  induction fuel with
  | zero =>
    intro low high1 closest hcl r hr
    exact hcl r hr
  | succ fuel ih =>
    intro low high1 closest hcl r hr
    rw [bsearchGo_succ] at hr
    by_cases hlh : low < high1
    · rw [if_pos hlh] at hr
      rcases hget : segs.get? ((low + high1 - 1) / 2) with _ | seg
      · rw [hget] at hr
        cases hr
      · rw [hget] at hr
        dsimp only at hr
        by_cases hlt : ltNum seg.generatedColumn c = true
        · rw [if_pos hlt] at hr
          refine ih _ _ _ ?_ r hr
          intro s hs
          simp only [if_pos rfl] at hs
          cases hs
          exact ltNum_not_gt hlt
        · rw [if_neg hlt] at hr
          by_cases hgt : gtNum seg.generatedColumn c = true
          · rw [if_pos hgt] at hr
            refine ih _ _ _ ?_ r hr
            intro s hs
            rw [if_neg (by decide)] at hs
            exact hcl s hs
          · rw [if_neg hgt] at hr
            cases hr
            rw [Bool.not_eq_true] at hgt
            exact hgt
    · rw [if_neg hlh] at hr
      exact hcl r hr

theorem bsearchGo_ceil_notLt (segs : List Segment) (c : Int) :
    ∀ (fuel low high1 : Nat) (closest : Option Segment),
    (∀ s, closest = some s → ltNum s.generatedColumn c = false) →
    ∀ r, bsearchGo segs c Bias.UPPER_BOUND fuel low high1 closest = some r →
    ltNum r.generatedColumn c = false := by
  intro fuel
  induction fuel with
  | zero =>
    intro low high1 closest hcl r hr
    exact hcl r hr
  | succ fuel ih =>
    intro low high1 closest hcl r hr
    rw [bsearchGo_succ] at hr
    by_cases hlh : low < high1
    · rw [if_pos hlh] at hr
      rcases hget : segs.get? ((low + high1 - 1) / 2) with _ | seg
      · rw [hget] at hr
        cases hr
      · rw [hget] at hr
        dsimp only at hr
        by_cases hlt : ltNum seg.generatedColumn c = true
        · rw [if_pos hlt] at hr
          refine ih _ _ _ ?_ r hr
          intro s hs
          rw [if_neg (by decide)] at hs
          exact hcl s hs
        · rw [if_neg hlt] at hr
          by_cases hgt : gtNum seg.generatedColumn c = true
          · rw [if_pos hgt] at hr
            refine ih _ _ _ ?_ r hr
            intro s hs
            simp only [if_pos rfl] at hs
            cases hs
            exact gtNum_not_lt hgt
          · rw [if_neg hgt] at hr
            cases hr
            rw [Bool.not_eq_true] at hlt
            exact hlt
    · rw [if_neg hlh] at hr
      exact hcl r hr

/-- C6: `getSegment` with `LOWER_BOUND` (floor) never returns a segment
whose `generatedColumn` exceeds the queried column, and with `UPPER_BOUND`
(ceil) never one whose `generatedColumn` is below it — for every store
state, line and column. -/
theorem getSegment_bias_monotone (svc : MappingService) (generatedLine c : Int) :
    (∀ seg, svc.getSegment generatedLine c Bias.LOWER_BOUND = some seg →
      ∀ g, seg.generatedColumn = some g → g ≤ c) ∧
    (∀ seg, svc.getSegment generatedLine c Bias.UPPER_BOUND = some seg →
      ∀ g, seg.generatedColumn = some g → c ≤ g) := by
  constructor
  · intro seg hres g hg
    unfold MappingService.getSegment at hres
    rcases hline : (if generatedLine - svc.offsets.line - 1 < 0 then none
        else svc.lines.getD (generatedLine - svc.offsets.line - 1).toNat none) with _ | segs
    · simp only [hline] at hres
      cases hres
    · simp only [hline] at hres
      by_cases hempty : segs.length = 0
      · rw [if_pos hempty] at hres
        cases hres
      · rw [if_neg hempty] at hres
        have := bsearchGo_floor_notGt segs c (segs.length + 1) 0 segs.length none
          (fun s hs => by cases hs) seg hres
        rw [hg] at this
        simp only [gtNum, decide_eq_false_iff_not] at this
        omega
  · intro seg hres g hg
    unfold MappingService.getSegment at hres
    rcases hline : (if generatedLine - svc.offsets.line - 1 < 0 then none
        else svc.lines.getD (generatedLine - svc.offsets.line - 1).toNat none) with _ | segs
    · simp only [hline] at hres
      cases hres
    · simp only [hline] at hres
      by_cases hempty : segs.length = 0
      · rw [if_pos hempty] at hres
        cases hres
      · rw [if_neg hempty] at hres
        have := bsearchGo_ceil_notLt segs c (segs.length + 1) 0 segs.length none
          (fun s hs => by cases hs) seg hres
        rw [hg] at this
        simp only [ltNum, decide_eq_false_iff_not] at this
        omega

/-- C6, witness: on a one-segment store at column 5, a floor query at
column 7 returns that segment, and its column indeed does not exceed 7. -/
theorem getSegment_bias_monotone_witness :
    ({ lines := [some [⟨1, 1, none, 0, 1, some 5⟩]],
       offsets := { line := 0, name := 0, sources := 0 } }
        : MappingService).getSegment 1 7 Bias.LOWER_BOUND
      = some ⟨1, 1, none, 0, 1, some 5⟩ ∧ (5 : Int) ≤ 7 :=
  ⟨by decide,
    (getSegment_bias_monotone
      { lines := [some [⟨1, 1, none, 0, 1, some 5⟩]],
        offsets := { line := 0, name := 0, sources := 0 } } 1 7).1
      ⟨1, 1, none, 0, 1, some 5⟩ (by decide) 5 rfl⟩

/-! ### C9: lookups are total and only ever return stored segments -/

/-- All segments held by a store, in line order (`null` lines contribute
nothing). -/
def storeSegments (lines : SourceMappingType) : List Segment :=
  (lines.filterMap id).flatten

theorem getSegment_eq (svc : MappingService) (generatedLine generatedColumn : Int)
    (bias : Bias) :
    svc.getSegment generatedLine generatedColumn bias
      = match (if generatedLine - svc.offsets.line - 1 < 0 then none
          else svc.lines.getD (generatedLine - svc.offsets.line - 1).toNat none) with
        | none => none
        | some segs =>
          if segs.length = 0 then none
          else bsearchGo segs generatedColumn bias (segs.length + 1) 0 segs.length none := rfl

theorem getD_of_get? {α : Type} (l : List α) (n : Nat) (d v : α)
    (h : l.get? n = some v) : l.getD n d = v := by
  simp [List.getD_eq_getElem?_getD, ← List.get?_eq_getElem?, h]

theorem bsearchGo_pred (P : Segment → Prop) (segs : List Segment) (c : Int) (bias : Bias)
    (hall : ∀ s ∈ segs, P s) :
    ∀ (fuel low high1 : Nat) (closest : Option Segment),
    (∀ s, closest = some s → P s) →
    ∀ r, bsearchGo segs c bias fuel low high1 closest = some r → P r := by
  intro fuel
  induction fuel with
  | zero =>
    intro low high1 closest hcl r hr
    exact hcl r hr
  | succ fuel ih =>
    intro low high1 closest hcl r hr
    rw [bsearchGo_succ] at hr
    by_cases hlh : low < high1
    · rw [if_pos hlh] at hr
      rcases hget : segs.get? ((low + high1 - 1) / 2) with _ | seg
      · rw [hget] at hr
        cases hr
      · have hsegmem : P seg := hall seg (List.get?_mem hget)
        rw [hget] at hr
        dsimp only at hr
        by_cases hlt : ltNum seg.generatedColumn c = true
        · rw [if_pos hlt] at hr
          refine ih _ _ _ ?_ r hr
          intro s hs
          split at hs
          · cases hs; exact hsegmem
          · exact hcl s hs
        · rw [if_neg hlt] at hr
          by_cases hgt : gtNum seg.generatedColumn c = true
          · rw [if_pos hgt] at hr
            refine ih _ _ _ ?_ r hr
            intro s hs
            split at hs
            · cases hs; exact hsegmem
            · exact hcl s hs
          · rw [if_neg hgt] at hr
            cases hr
            exact hsegmem
    · rw [if_neg hlh] at hr
      exact hcl r hr

theorem origSegsGo_pred (P : Segment → Prop) (sl sc si : Int) (bias : Bias) :
    ∀ (segs : List Segment) (closest : Option Segment) (cd : Option Int),
    (∀ s ∈ segs, P s) → (∀ s, closest = some s → P s) →
    (∀ seg, origSegsGo sl sc si bias segs closest cd = .inl seg → P seg) ∧
    (∀ st s, origSegsGo sl sc si bias segs closest cd = .inr st → st.1 = some s → P s) := by
  intro segs
  induction segs with
  | nil =>
    intro closest cd _ hcl
    constructor
    · intro seg hseg
      cases hseg
    · intro st s hst hs
      cases hst
      exact hcl s hs
  | cons seg rest ih =>
    intro closest cd hall hcl
    have hsegP : P seg := hall seg (by simp)
    have hrest : ∀ s ∈ rest, P s := fun s hs => hall s (by simp [hs])
    unfold origSegsGo
    split_ifs with hskip hex hfl hcol hdist hce hcol2 hdist2
    · exact ih closest cd hrest hcl
    · constructor
      · intro s hs
        cases hs
        exact hsegP
      · intro st s hst
        cases hst
    · exact ih _ _ hrest (fun s hs => by cases hs; exact hsegP)
    · exact ih closest cd hrest hcl
    · exact ih closest cd hrest hcl
    · exact ih _ _ hrest (fun s hs => by cases hs; exact hsegP)
    · exact ih closest cd hrest hcl
    · exact ih closest cd hrest hcl
    · exact ih closest cd hrest hcl

theorem origLinesGo_pred (P : Segment → Prop) (sl sc si : Int) (bias : Bias) :
    ∀ (lines : SourceMappingType) (closest : Option Segment) (cd : Option Int),
    (∀ segs, some segs ∈ lines → ∀ s ∈ segs, P s) →
    (∀ s, closest = some s → P s) →
    ∀ r, origLinesGo sl sc si bias lines closest cd = some r → P r := by
  intro lines
  induction lines with
  | nil =>
    intro closest cd _ hcl r hr
    exact hcl r hr
  | cons line rest ih =>
    intro closest cd hall hcl r hr
    rcases line with _ | segs
    · exact ih closest cd (fun segs hm => hall segs (by simp [hm])) hcl r hr
    · have hsegs : ∀ s ∈ segs, P s := hall segs (by simp)
      have hrest : ∀ sg, some sg ∈ rest → ∀ s ∈ sg, P s :=
        fun sg hm => hall sg (by simp [hm])
      unfold origLinesGo at hr
      rcases hsp : origSegsGo sl sc si bias segs closest cd with seg | st
      · rw [hsp] at hr
        have hP := (origSegsGo_pred P sl sc si bias segs closest cd hsegs hcl).1 seg hsp
        cases hr
        exact hP
      · rw [hsp] at hr
        exact ih st.1 st.2 hrest (fun s hs =>
          (origSegsGo_pred P sl sc si bias segs closest cd hsegs hcl).2 st s hsp hs) r hr

/-- C9: for every store state, integer query and bias, `getSegment` and
`getOriginalSegment` return either `none` or a segment held in the store
(they are total functions — nothing throws); in particular a line index
that is negative, past the stored lines, a `null` frame, or an empty
segment list makes `getSegment` return `none`. -/
theorem lookups_total (svc : MappingService) (line column sourceIndex : Int) (bias : Bias) :
    (svc.getSegment line column bias = none ∨
      ∃ seg, svc.getSegment line column bias = some seg ∧ seg ∈ storeSegments svc.lines) ∧
    (svc.getOriginalSegment line column sourceIndex bias = none ∨
      ∃ seg, svc.getOriginalSegment line column sourceIndex bias = some seg ∧
        seg ∈ storeSegments svc.lines) ∧
    (line - svc.offsets.line - 1 < 0 → svc.getSegment line column bias = none) ∧
    ((svc.lines.length : Int) ≤ line - svc.offsets.line - 1 →
      svc.getSegment line column bias = none) ∧
    (∀ idx : Nat, (idx : Int) = line - svc.offsets.line - 1 →
      (svc.lines.get? idx = some none ∨ svc.lines.get? idx = some (some [])) →
      svc.getSegment line column bias = none) := by
  refine ⟨?_, ?_, ?_, ?_, ?_⟩
  · rcases hres : svc.getSegment line column bias with _ | seg
    · exact Or.inl rfl
    · refine Or.inr ⟨seg, rfl, ?_⟩
      rw [getSegment_eq] at hres
      rcases hline : (if line - svc.offsets.line - 1 < 0 then none
          else svc.lines.getD (line - svc.offsets.line - 1).toNat none) with _ | segs
      · rw [hline] at hres
        cases hres
      · rw [hline] at hres
        dsimp only at hres
        by_cases hempty : segs.length = 0
        · rw [if_pos hempty] at hres
          cases hres
        · rw [if_neg hempty] at hres
          have hsegsmem : ∀ s ∈ segs, s ∈ storeSegments svc.lines := by
            intro s hs
            by_cases hneg : line - svc.offsets.line - 1 < 0
            · rw [if_pos hneg] at hline
              cases hline
            · rw [if_neg hneg] at hline
              have hget : svc.lines.get? (line - svc.offsets.line - 1).toNat
                  = some (some segs) := by
                rcases hg : svc.lines.get? (line - svc.offsets.line - 1).toNat with _ | v
                · rw [List.getD_eq_default _ _ (List.get?_eq_none.mp hg)] at hline
                  cases hline
                · rw [getD_of_get? _ _ _ _ hg] at hline
                  rw [hline]
              have h1 : some segs ∈ svc.lines := List.get?_mem hget
              exact List.mem_flatten.mpr
                ⟨segs, List.mem_filterMap.mpr ⟨some segs, h1, rfl⟩, hs⟩
          exact bsearchGo_pred (· ∈ storeSegments svc.lines) segs column bias hsegsmem
            (segs.length + 1) 0 segs.length none (fun s hs => by cases hs) seg hres
  · rcases hres : svc.getOriginalSegment line column sourceIndex bias with _ | seg
    · exact Or.inl rfl
    · refine Or.inr ⟨seg, rfl, ?_⟩
      refine origLinesGo_pred (· ∈ storeSegments svc.lines) line column sourceIndex bias
        svc.lines none none ?_ (fun s hs => by cases hs) seg hres
      intro segs hm s hs
      exact List.mem_flatten.mpr ⟨segs, List.mem_filterMap.mpr ⟨some segs, hm, rfl⟩, hs⟩
  · intro hneg
    rw [getSegment_eq, if_pos hneg]
  · intro hlen
    rw [getSegment_eq, if_neg (by omega), List.getD_eq_default _ _ (by omega)]
  · intro idx hidx hcase
    rw [getSegment_eq, if_neg (by omega)]
    have hidx' : (line - svc.offsets.line - 1).toNat = idx := by omega
    rw [hidx']
    rcases hcase with hcase | hcase
    · rw [getD_of_get? _ _ _ _ hcase]
    · rw [getD_of_get? _ _ _ _ hcase]
      simp

/-- C9, witness: concrete out-of-range, null-frame and empty-frame queries
against a small store all return `none`. -/
theorem lookups_total_witness :
    ({ lines := [none, some []], offsets := { line := 0, name := 0, sources := 0 } }
        : MappingService).getSegment 0 1 Bias.BOUND = none ∧
    ({ lines := [none, some []], offsets := { line := 0, name := 0, sources := 0 } }
        : MappingService).getSegment 3 1 Bias.BOUND = none ∧
    ({ lines := [none, some []], offsets := { line := 0, name := 0, sources := 0 } }
        : MappingService).getSegment 1 1 Bias.BOUND = none ∧
    ({ lines := [none, some []], offsets := { line := 0, name := 0, sources := 0 } }
        : MappingService).getSegment 2 1 Bias.BOUND = none := by
  refine ⟨?_, ?_, ?_, ?_⟩
  · exact (lookups_total _ 0 1 0 Bias.BOUND).2.2.1 (by decide)
  · exact (lookups_total _ 3 1 0 Bias.BOUND).2.2.2.1 (by decide)
  · exact (lookups_total _ 1 1 0 Bias.BOUND).2.2.2.2 0 (by decide) (Or.inl (by decide))
  · exact (lookups_total _ 2 1 0 Bias.BOUND).2.2.2.2 1 (by decide) (Or.inr (by decide))

/-! ### C5: semantics of `getOriginalSegment` -/

/-- A segment relevant to an original-position query: matching source
index and source line. -/
def matchesOrig (sl si : Int) (seg : Segment) : Prop :=
  seg.sourceIndex = si ∧ seg.line = sl

instance (sl si : Int) (seg : Segment) : Decidable (matchesOrig sl si seg) := by
  unfold matchesOrig
  infer_instance

theorem origSegsGo_floor_cons (sl sc si : Int) (seg : Segment) (rest : List Segment)
    (closest : Option Segment) (cd : Option Int) :
    origSegsGo sl sc si Bias.LOWER_BOUND (seg :: rest) closest cd
      = if seg.sourceIndex ≠ si ∨ seg.line ≠ sl then
          origSegsGo sl sc si Bias.LOWER_BOUND rest closest cd
        else if seg.column = sc then .inl seg
        else if seg.column < sc then
          if distLt (sc - seg.column) cd then
            origSegsGo sl sc si Bias.LOWER_BOUND rest (some seg) (some (sc - seg.column))
          else origSegsGo sl sc si Bias.LOWER_BOUND rest closest cd
        else origSegsGo sl sc si Bias.LOWER_BOUND rest closest cd := rfl

theorem origSegsGo_ceil_cons (sl sc si : Int) (seg : Segment) (rest : List Segment)
    (closest : Option Segment) (cd : Option Int) :
    origSegsGo sl sc si Bias.UPPER_BOUND (seg :: rest) closest cd
      = if seg.sourceIndex ≠ si ∨ seg.line ≠ sl then
          origSegsGo sl sc si Bias.UPPER_BOUND rest closest cd
        else if seg.column = sc then .inl seg
        else if seg.column > sc then
          if distLt (seg.column - sc) cd then
            origSegsGo sl sc si Bias.UPPER_BOUND rest (some seg) (some (seg.column - sc))
          else origSegsGo sl sc si Bias.UPPER_BOUND rest closest cd
        else origSegsGo sl sc si Bias.UPPER_BOUND rest closest cd := rfl

theorem origSegsGo_bound_cons (sl sc si : Int) (seg : Segment) (rest : List Segment)
    (closest : Option Segment) (cd : Option Int) :
    origSegsGo sl sc si Bias.BOUND (seg :: rest) closest cd
      = if seg.sourceIndex ≠ si ∨ seg.line ≠ sl then
          origSegsGo sl sc si Bias.BOUND rest closest cd
        else if seg.column = sc then .inl seg
        else origSegsGo sl sc si Bias.BOUND rest closest cd := rfl

theorem origSegsGo_inl (sl sc si : Int) (bias : Bias) (segs : List Segment) :
    ∀ (closest : Option Segment) (cd : Option Int) (seg : Segment),
    origSegsGo sl sc si bias segs closest cd = .inl seg →
    seg ∈ segs ∧ matchesOrig sl si seg ∧ seg.column = sc := by
  induction segs with
  | nil =>
    intro closest cd seg h
    cases h
  | cons s rest ih =>
    intro closest cd seg h
    unfold origSegsGo at h
    split_ifs at h with hskip hex hfl hcol hdist hce hcol2 hdist2 <;>
      first
        | (cases h
           refine ⟨by simp, ?_, hex⟩
           unfold matchesOrig
           push_neg at hskip
           exact hskip)
        | (rcases ih _ _ _ h with ⟨hmem, hm, hc⟩
           exact ⟨by simp [hmem], hm, hc⟩)

theorem origSegsGo_finds_exact (sl sc si : Int) (bias : Bias) (segs : List Segment) :
    ∀ (closest : Option Segment) (cd : Option Int),
    (∃ s ∈ segs, matchesOrig sl si s ∧ s.column = sc) →
    ∃ seg, origSegsGo sl sc si bias segs closest cd = .inl seg := by
  induction segs with
  | nil =>
    intro _ _ hex
    rcases hex with ⟨s, hs, _⟩
    cases hs
  | cons s rest ih =>
    intro closest cd hex
    rcases hex with ⟨t, ht, hm, hc⟩
    rw [List.mem_cons] at ht
    unfold origSegsGo
    by_cases hskip : s.sourceIndex ≠ si ∨ s.line ≠ sl
    · rw [if_pos hskip]
      refine ih _ _ ⟨t, ?_, hm, hc⟩
      rcases ht with rfl | ht
      · exfalso
        rcases hm with ⟨h1, h2⟩
        rcases hskip with h | h
        · exact h h1
        · exact h h2
      · exact ht
    · rw [if_neg hskip]
      by_cases hexact : s.column = sc
      · rw [if_pos hexact]
        exact ⟨s, rfl⟩
      · rw [if_neg hexact]
        have hrest : ∃ u ∈ rest, matchesOrig sl si u ∧ u.column = sc := by
          rcases ht with rfl | ht
          · exact absurd hc hexact
          · exact ⟨t, ht, hm, hc⟩
        split_ifs <;> exact ih _ _ hrest

theorem origSegsGo_floor_inr (sl sc si : Int) (segs : List Segment) :
    ∀ (closest closest' : Option Segment) (cd cd' : Option Int),
    (∀ s, closest = some s → matchesOrig sl si s ∧ s.column < sc ∧ cd = some (sc - s.column)) →
    (closest = none → cd = none) →
    origSegsGo sl sc si Bias.LOWER_BOUND segs closest cd = .inr (closest', cd') →
    ((∀ s, closest' = some s →
        matchesOrig sl si s ∧ s.column < sc ∧ cd' = some (sc - s.column)) ∧
     (closest' = none → cd' = none) ∧
     (∀ s ∈ segs, matchesOrig sl si s → s.column ≠ sc) ∧
     (∀ s ∈ segs, matchesOrig sl si s → s.column < sc →
        ∃ t, closest' = some t ∧ s.column ≤ t.column) ∧
     (∀ s, closest = some s → ∃ t, closest' = some t ∧ s.column ≤ t.column)) := by
  induction segs with
  | nil =>
    intro closest closest' cd cd' hinv1 hinv2 hres
    cases hres
    refine ⟨hinv1, hinv2, ?_, ?_, ?_⟩
    · intro s hs
      cases hs
    · intro s hs
      cases hs
    · intro s hs
      exact ⟨s, hs, le_refl _⟩
  | cons seg rest ih =>
    intro closest closest' cd cd' hinv1 hinv2 hres
    rw [origSegsGo_floor_cons] at hres
    by_cases hskip : seg.sourceIndex ≠ si ∨ seg.line ≠ sl
    · rw [if_pos hskip] at hres
      rcases ih closest closest' cd cd' hinv1 hinv2 hres with ⟨c1, c2, c3, c4, c5⟩
      refine ⟨c1, c2, ?_, ?_, c5⟩
      · intro s hs hm
        rw [List.mem_cons] at hs
        rcases hs with rfl | hs
        · exfalso
          rcases hm with ⟨h1, h2⟩
          rcases hskip with h | h
          · exact h h1
          · exact h h2
        · exact c3 s hs hm
      · intro s hs hm hlt
        rw [List.mem_cons] at hs
        rcases hs with rfl | hs
        · exfalso
          rcases hm with ⟨h1, h2⟩
          rcases hskip with h | h
          · exact h h1
          · exact h h2
        · exact c4 s hs hm hlt
    · rw [if_neg hskip] at hres
      push_neg at hskip
      have hmseg : matchesOrig sl si seg := ⟨hskip.1, hskip.2⟩
      by_cases hexact : seg.column = sc
      · rw [if_pos hexact] at hres
        cases hres
      · rw [if_neg hexact] at hres
        by_cases hflo : seg.column < sc
        · rw [if_pos hflo] at hres
          by_cases hdist : distLt (sc - seg.column) cd = true
          · rw [if_pos hdist] at hres
            rcases ih (some seg) closest' (some (sc - seg.column)) cd'
              (fun s hs => by cases hs; exact ⟨hmseg, hflo, rfl⟩)
              (fun h => by cases h) hres with ⟨c1, c2, c3, c4, c5⟩
            refine ⟨c1, c2, ?_, ?_, ?_⟩
            · intro s hs hm
              rw [List.mem_cons] at hs
              rcases hs with rfl | hs
              · exact hexact
              · exact c3 s hs hm
            · intro s hs hm hlt
              rw [List.mem_cons] at hs
              rcases hs with rfl | hs
              · exact c5 s rfl
              · exact c4 s hs hm hlt
            · intro s hs
              rcases hinv1 s hs with ⟨_, hlt, hcd⟩
              have hlt2 : s.column < seg.column := by
                rw [hcd] at hdist
                simp only [distLt, decide_eq_true_eq] at hdist
                omega
              rcases c5 seg rfl with ⟨t, ht, hle⟩
              exact ⟨t, ht, by omega⟩
          · rw [if_neg hdist] at hres
            rcases ih closest closest' cd cd' hinv1 hinv2 hres with ⟨c1, c2, c3, c4, c5⟩
            refine ⟨c1, c2, ?_, ?_, c5⟩
            · intro s hs hm
              rw [List.mem_cons] at hs
              rcases hs with rfl | hs
              · exact hexact
              · exact c3 s hs hm
            · intro s hs hm hlt
              rw [List.mem_cons] at hs
              rcases hs with rfl | hs
              · rcases hcl : closest with _ | s0
                · exfalso
                  rw [hinv2 hcl] at hdist
                  exact hdist rfl
                · rcases hinv1 s0 hcl with ⟨_, hlt0, hcd0⟩
                  have hge : s0.column ≥ s.column := by
                    rw [hcd0] at hdist
                    simp only [distLt, decide_eq_true_eq] at hdist
                    omega
                  rcases c5 s0 hcl with ⟨t, ht, hle⟩
                  exact ⟨t, ht, by omega⟩
              · exact c4 s hs hm hlt
        · rw [if_neg hflo] at hres
          rcases ih closest closest' cd cd' hinv1 hinv2 hres with ⟨c1, c2, c3, c4, c5⟩
          refine ⟨c1, c2, ?_, ?_, c5⟩
          · intro s hs hm
            rw [List.mem_cons] at hs
            rcases hs with rfl | hs
            · exact hexact
            · exact c3 s hs hm
          · intro s hs hm hlt
            rw [List.mem_cons] at hs
            rcases hs with rfl | hs
            · exact absurd hlt hflo
            · exact c4 s hs hm hlt

theorem origSegsGo_ceil_inr (sl sc si : Int) (segs : List Segment) :
    ∀ (closest closest' : Option Segment) (cd cd' : Option Int),
    (∀ s, closest = some s → matchesOrig sl si s ∧ sc < s.column ∧ cd = some (s.column - sc)) →
    (closest = none → cd = none) →
    origSegsGo sl sc si Bias.UPPER_BOUND segs closest cd = .inr (closest', cd') →
    ((∀ s, closest' = some s →
        matchesOrig sl si s ∧ sc < s.column ∧ cd' = some (s.column - sc)) ∧
     (closest' = none → cd' = none) ∧
     (∀ s ∈ segs, matchesOrig sl si s → s.column ≠ sc) ∧
     (∀ s ∈ segs, matchesOrig sl si s → sc < s.column →
        ∃ t, closest' = some t ∧ t.column ≤ s.column) ∧
     (∀ s, closest = some s → ∃ t, closest' = some t ∧ t.column ≤ s.column)) := by
  induction segs with
  | nil =>
    intro closest closest' cd cd' hinv1 hinv2 hres
    cases hres
    refine ⟨hinv1, hinv2, ?_, ?_, ?_⟩
    · intro s hs
      cases hs
    · intro s hs
      cases hs
    · intro s hs
      exact ⟨s, hs, le_refl _⟩
  | cons seg rest ih =>
    intro closest closest' cd cd' hinv1 hinv2 hres
    rw [origSegsGo_ceil_cons] at hres
    by_cases hskip : seg.sourceIndex ≠ si ∨ seg.line ≠ sl
    · rw [if_pos hskip] at hres
      rcases ih closest closest' cd cd' hinv1 hinv2 hres with ⟨c1, c2, c3, c4, c5⟩
      refine ⟨c1, c2, ?_, ?_, c5⟩
      · intro s hs hm
        rw [List.mem_cons] at hs
        rcases hs with rfl | hs
        · exfalso
          rcases hm with ⟨h1, h2⟩
          rcases hskip with h | h
          · exact h h1
          · exact h h2
        · exact c3 s hs hm
      · intro s hs hm hlt
        rw [List.mem_cons] at hs
        rcases hs with rfl | hs
        · exfalso
          rcases hm with ⟨h1, h2⟩
          rcases hskip with h | h
          · exact h h1
          · exact h h2
        · exact c4 s hs hm hlt
    · rw [if_neg hskip] at hres
      push_neg at hskip
      have hmseg : matchesOrig sl si seg := ⟨hskip.1, hskip.2⟩
      by_cases hexact : seg.column = sc
      · rw [if_pos hexact] at hres
        cases hres
      · rw [if_neg hexact] at hres
        by_cases hcei : seg.column > sc
        · rw [if_pos hcei] at hres
          by_cases hdist : distLt (seg.column - sc) cd = true
          · rw [if_pos hdist] at hres
            rcases ih (some seg) closest' (some (seg.column - sc)) cd'
              (fun s hs => by cases hs; exact ⟨hmseg, hcei, rfl⟩)
              (fun h => by cases h) hres with ⟨c1, c2, c3, c4, c5⟩
            refine ⟨c1, c2, ?_, ?_, ?_⟩
            · intro s hs hm
              rw [List.mem_cons] at hs
              rcases hs with rfl | hs
              · exact hexact
              · exact c3 s hs hm
            · intro s hs hm hlt
              rw [List.mem_cons] at hs
              rcases hs with rfl | hs
              · exact c5 s rfl
              · exact c4 s hs hm hlt
            · intro s hs
              rcases hinv1 s hs with ⟨_, hlt, hcd⟩
              have hlt2 : seg.column < s.column := by
                rw [hcd] at hdist
                simp only [distLt, decide_eq_true_eq] at hdist
                omega
              rcases c5 seg rfl with ⟨t, ht, hle⟩
              exact ⟨t, ht, by omega⟩
          · rw [if_neg hdist] at hres
            rcases ih closest closest' cd cd' hinv1 hinv2 hres with ⟨c1, c2, c3, c4, c5⟩
            refine ⟨c1, c2, ?_, ?_, c5⟩
            · intro s hs hm
              rw [List.mem_cons] at hs
              rcases hs with rfl | hs
              · exact hexact
              · exact c3 s hs hm
            · intro s hs hm hlt
              rw [List.mem_cons] at hs
              rcases hs with rfl | hs
              · rcases hcl : closest with _ | s0
                · exfalso
                  rw [hinv2 hcl] at hdist
                  exact hdist rfl
                · rcases hinv1 s0 hcl with ⟨_, hlt0, hcd0⟩
                  have hge : s0.column ≤ s.column := by
                    rw [hcd0] at hdist
                    simp only [distLt, decide_eq_true_eq] at hdist
                    omega
                  rcases c5 s0 hcl with ⟨t, ht, hle⟩
                  exact ⟨t, ht, by omega⟩
              · exact c4 s hs hm hlt
        · rw [if_neg hcei] at hres
          rcases ih closest closest' cd cd' hinv1 hinv2 hres with ⟨c1, c2, c3, c4, c5⟩
          refine ⟨c1, c2, ?_, ?_, c5⟩
          · intro s hs hm
            rw [List.mem_cons] at hs
            rcases hs with rfl | hs
            · exact hexact
            · exact c3 s hs hm
          · intro s hs hm hlt
            rw [List.mem_cons] at hs
            rcases hs with rfl | hs
            · exact absurd hlt hcei
            · exact c4 s hs hm hlt

theorem origSegsGo_bound_inr (sl sc si : Int) (segs : List Segment) :
    ∀ (closest : Option Segment) (cd : Option Int) (st : Option Segment × Option Int),
    origSegsGo sl sc si Bias.BOUND segs closest cd = .inr st → st = (closest, cd) := by
  induction segs with
  | nil =>
    intro closest cd st h
    cases h
    rfl
  | cons seg rest ih =>
    intro closest cd st h
    rw [origSegsGo_bound_cons] at h
    by_cases hskip : seg.sourceIndex ≠ si ∨ seg.line ≠ sl
    · rw [if_pos hskip] at h
      exact ih closest cd st h
    · rw [if_neg hskip] at h
      by_cases hexact : seg.column = sc
      · rw [if_pos hexact] at h
        cases h
      · rw [if_neg hexact] at h
        exact ih closest cd st h

theorem origLinesGo_exact (sl sc si : Int) (bias : Bias) (lines : SourceMappingType) :
    ∀ (closest : Option Segment) (cd : Option Int),
    (∃ segs, some segs ∈ lines ∧ ∃ s ∈ segs, matchesOrig sl si s ∧ s.column = sc) →
    ∃ seg, origLinesGo sl sc si bias lines closest cd = some seg ∧
      matchesOrig sl si seg ∧ seg.column = sc := by
  induction lines with
  | nil =>
    intro _ _ hex
    rcases hex with ⟨segs, hmem, _⟩
    cases hmem
  | cons line rest ih =>
    intro closest cd hex
    rcases hex with ⟨segs, hmem, hex⟩
    rw [List.mem_cons] at hmem
    rcases line with _ | fsegs
    · rcases hmem with h | hmem
      · cases h
      · exact ih _ _ ⟨segs, hmem, hex⟩
    · unfold origLinesGo
      rcases hmem with heq | hmem
      · have h2 : segs = fsegs := by injection heq
        subst h2
        rcases origSegsGo_finds_exact sl sc si bias segs closest cd hex with ⟨seg, hseg⟩
        rw [hseg]
        rcases origSegsGo_inl sl sc si bias segs closest cd seg hseg with ⟨_, hm, hc⟩
        exact ⟨seg, rfl, hm, hc⟩
      · rcases hsp : origSegsGo sl sc si bias fsegs closest cd with seg | st
        · rcases origSegsGo_inl sl sc si bias fsegs closest cd seg hsp with ⟨_, hm, hc⟩
          exact ⟨seg, rfl, hm, hc⟩
        · exact ih st.1 st.2 ⟨segs, hmem, hex⟩

theorem origLinesGo_floor_char (sl sc si : Int) (lines : SourceMappingType) :
    ∀ (closest : Option Segment) (cd : Option Int),
    (∀ s, closest = some s → matchesOrig sl si s ∧ s.column < sc ∧ cd = some (sc - s.column)) →
    (closest = none → cd = none) →
    (∀ segs, some segs ∈ lines → ∀ s ∈ segs, matchesOrig sl si s → s.column ≠ sc) →
    ((∀ s, origLinesGo sl sc si Bias.LOWER_BOUND lines closest cd = some s →
        matchesOrig sl si s ∧ s.column < sc) ∧
     (∀ segs, some segs ∈ lines → ∀ s ∈ segs, matchesOrig sl si s → s.column < sc →
        ∃ t, origLinesGo sl sc si Bias.LOWER_BOUND lines closest cd = some t ∧
          s.column ≤ t.column) ∧
     (∀ s, closest = some s →
        ∃ t, origLinesGo sl sc si Bias.LOWER_BOUND lines closest cd = some t ∧
          s.column ≤ t.column)) := by
  induction lines with
  | nil =>
    intro closest cd hinv1 hinv2 _
    refine ⟨?_, ?_, ?_⟩
    · intro s hs
      rcases hinv1 s hs with ⟨hm, hlt, _⟩
      exact ⟨hm, hlt⟩
    · intro segs hmem
      cases hmem
    · intro s hs
      exact ⟨s, hs, le_refl _⟩
  | cons line rest ih =>
    intro closest cd hinv1 hinv2 hnoex
    have hnoexRest : ∀ segs, some segs ∈ rest → ∀ s ∈ segs, matchesOrig sl si s →
        s.column ≠ sc := fun segs hm => hnoex segs (by simp [hm])
    rcases line with _ | fsegs
    · rcases ih closest cd hinv1 hinv2 hnoexRest with ⟨d1, d2, d3⟩
      refine ⟨d1, ?_, d3⟩
      intro segs hmem s hs hm hlt
      rw [List.mem_cons] at hmem
      rcases hmem with h | hmem
      · cases h
      · exact d2 segs hmem s hs hm hlt
    · have hnoexHead : ∀ s ∈ fsegs, matchesOrig sl si s → s.column ≠ sc :=
        hnoex fsegs (by simp)
      rcases hsp : origSegsGo sl sc si Bias.LOWER_BOUND fsegs closest cd with seg | st
      · exfalso
        rcases origSegsGo_inl sl sc si Bias.LOWER_BOUND fsegs closest cd seg hsp
          with ⟨hmem, hm, hc⟩
        exact hnoexHead seg hmem hm hc
      · rcases origSegsGo_floor_inr sl sc si fsegs closest st.1 cd st.2 hinv1 hinv2 hsp
          with ⟨c1, c2, _, c4, c5⟩
        have hgo : origLinesGo sl sc si Bias.LOWER_BOUND (some fsegs :: rest) closest cd
            = origLinesGo sl sc si Bias.LOWER_BOUND rest st.1 st.2 := by
          have hunf : origLinesGo sl sc si Bias.LOWER_BOUND (some fsegs :: rest) closest cd
              = match origSegsGo sl sc si Bias.LOWER_BOUND fsegs closest cd with
                | .inl seg => some seg
                | .inr p => origLinesGo sl sc si Bias.LOWER_BOUND rest p.1 p.2 := rfl
          rw [hunf, hsp]
        rcases ih st.1 st.2 c1 c2 hnoexRest with ⟨d1, d2, d3⟩
        refine ⟨?_, ?_, ?_⟩
        · intro s hs
          rw [hgo] at hs
          exact d1 s hs
        · intro segs hmem s hs hm hlt
          rw [List.mem_cons] at hmem
          rw [hgo]
          rcases hmem with heq | hmem
          · have heq2 : fsegs = segs := by
              injection heq with h
              exact h.symm
            subst heq2
            rcases c4 s hs hm hlt with ⟨t, ht, hle⟩
            rcases d3 t ht with ⟨u, hu, hle2⟩
            exact ⟨u, hu, by omega⟩
          · exact d2 segs hmem s hs hm hlt
        · intro s hs
          rw [hgo]
          rcases c5 s hs with ⟨t, ht, hle⟩
          rcases d3 t ht with ⟨u, hu, hle2⟩
          exact ⟨u, hu, by omega⟩

theorem origLinesGo_ceil_char (sl sc si : Int) (lines : SourceMappingType) :
    ∀ (closest : Option Segment) (cd : Option Int),
    (∀ s, closest = some s → matchesOrig sl si s ∧ sc < s.column ∧ cd = some (s.column - sc)) →
    (closest = none → cd = none) →
    (∀ segs, some segs ∈ lines → ∀ s ∈ segs, matchesOrig sl si s → s.column ≠ sc) →
    ((∀ s, origLinesGo sl sc si Bias.UPPER_BOUND lines closest cd = some s →
        matchesOrig sl si s ∧ sc < s.column) ∧
     (∀ segs, some segs ∈ lines → ∀ s ∈ segs, matchesOrig sl si s → sc < s.column →
        ∃ t, origLinesGo sl sc si Bias.UPPER_BOUND lines closest cd = some t ∧
          t.column ≤ s.column) ∧
     (∀ s, closest = some s →
        ∃ t, origLinesGo sl sc si Bias.UPPER_BOUND lines closest cd = some t ∧
          t.column ≤ s.column)) := by
  induction lines with
  | nil =>
    intro closest cd hinv1 hinv2 _
    refine ⟨?_, ?_, ?_⟩
    · intro s hs
      rcases hinv1 s hs with ⟨hm, hlt, _⟩
      exact ⟨hm, hlt⟩
    · intro segs hmem
      cases hmem
    · intro s hs
      exact ⟨s, hs, le_refl _⟩
  | cons line rest ih =>
    intro closest cd hinv1 hinv2 hnoex
    have hnoexRest : ∀ segs, some segs ∈ rest → ∀ s ∈ segs, matchesOrig sl si s →
        s.column ≠ sc := fun segs hm => hnoex segs (by simp [hm])
    rcases line with _ | fsegs
    · rcases ih closest cd hinv1 hinv2 hnoexRest with ⟨d1, d2, d3⟩
      refine ⟨d1, ?_, d3⟩
      intro segs hmem s hs hm hlt
      rw [List.mem_cons] at hmem
      rcases hmem with h | hmem
      · cases h
      · exact d2 segs hmem s hs hm hlt
    · have hnoexHead : ∀ s ∈ fsegs, matchesOrig sl si s → s.column ≠ sc :=
        hnoex fsegs (by simp)
      rcases hsp : origSegsGo sl sc si Bias.UPPER_BOUND fsegs closest cd with seg | st
      · exfalso
        rcases origSegsGo_inl sl sc si Bias.UPPER_BOUND fsegs closest cd seg hsp
          with ⟨hmem, hm, hc⟩
        exact hnoexHead seg hmem hm hc
      · rcases origSegsGo_ceil_inr sl sc si fsegs closest st.1 cd st.2 hinv1 hinv2 hsp
          with ⟨c1, c2, _, c4, c5⟩
        have hgo : origLinesGo sl sc si Bias.UPPER_BOUND (some fsegs :: rest) closest cd
            = origLinesGo sl sc si Bias.UPPER_BOUND rest st.1 st.2 := by
          have hunf : origLinesGo sl sc si Bias.UPPER_BOUND (some fsegs :: rest) closest cd
              = match origSegsGo sl sc si Bias.UPPER_BOUND fsegs closest cd with
                | .inl seg => some seg
                | .inr p => origLinesGo sl sc si Bias.UPPER_BOUND rest p.1 p.2 := rfl
          rw [hunf, hsp]
        rcases ih st.1 st.2 c1 c2 hnoexRest with ⟨d1, d2, d3⟩
        refine ⟨?_, ?_, ?_⟩
        · intro s hs
          rw [hgo] at hs
          exact d1 s hs
        · intro segs hmem s hs hm hlt
          rw [List.mem_cons] at hmem
          rw [hgo]
          rcases hmem with heq | hmem
          · have heq2 : fsegs = segs := by
              injection heq with h
              exact h.symm
            subst heq2
            rcases c4 s hs hm hlt with ⟨t, ht, hle⟩
            rcases d3 t ht with ⟨u, hu, hle2⟩
            exact ⟨u, hu, by omega⟩
          · exact d2 segs hmem s hs hm hlt
        · intro s hs
          rw [hgo]
          rcases c5 s hs with ⟨t, ht, hle⟩
          rcases d3 t ht with ⟨u, hu, hle2⟩
          exact ⟨u, hu, by omega⟩

theorem origLinesGo_bound_none (sl sc si : Int) (lines : SourceMappingType) :
    ∀ (closest : Option Segment) (cd : Option Int),
    (∀ segs, some segs ∈ lines → ∀ s ∈ segs, matchesOrig sl si s → s.column ≠ sc) →
    origLinesGo sl sc si Bias.BOUND lines closest cd = closest := by
  induction lines with
  | nil =>
    intro closest cd _
    rfl
  | cons line rest ih =>
    intro closest cd hnoex
    have hnoexRest : ∀ segs, some segs ∈ rest → ∀ s ∈ segs, matchesOrig sl si s →
        s.column ≠ sc := fun segs hm => hnoex segs (by simp [hm])
    rcases line with _ | fsegs
    · exact ih closest cd hnoexRest
    · rcases hsp : origSegsGo sl sc si Bias.BOUND fsegs closest cd with seg | st
      · exfalso
        rcases origSegsGo_inl sl sc si Bias.BOUND fsegs closest cd seg hsp
          with ⟨hmem, hm, hc⟩
        exact hnoex fsegs (by simp) seg hmem hm hc
      · have hst := origSegsGo_bound_inr sl sc si fsegs closest cd st hsp
        have hgo : origLinesGo sl sc si Bias.BOUND (some fsegs :: rest) closest cd
            = origLinesGo sl sc si Bias.BOUND rest st.1 st.2 := by
          have hunf : origLinesGo sl sc si Bias.BOUND (some fsegs :: rest) closest cd
              = match origSegsGo sl sc si Bias.BOUND fsegs closest cd with
                | .inl seg => some seg
                | .inr p => origLinesGo sl sc si Bias.BOUND rest p.1 p.2 := rfl
          rw [hunf, hsp]
        rw [hgo, hst]
        exact ih closest cd hnoexRest

/-- C5: semantics of original-position lookup.  If some stored segment
matches `(sourceIndex, sourceLine)` with exactly the queried column, the
lookup (under any bias) returns a segment with exactly that column.
Otherwise, with no exact-column match present: under `LOWER_BOUND` (floor)
the result is a matching segment with column strictly below the target and
no matching segment lies strictly between it and the target (largest
below), and one is returned whenever a candidate exists; dually for
`UPPER_BOUND` (ceil); under `BOUND` (exact) the lookup returns `none`. -/
theorem getOriginalSegment_semantics (svc : MappingService) (sl sc si : Int) :
    (∀ bias : Bias,
      (∃ segs, some segs ∈ svc.lines ∧ ∃ s ∈ segs, matchesOrig sl si s ∧ s.column = sc) →
      ∃ seg, svc.getOriginalSegment sl sc si bias = some seg ∧
        matchesOrig sl si seg ∧ seg.column = sc) ∧
    ((∀ segs, some segs ∈ svc.lines → ∀ s ∈ segs, matchesOrig sl si s → s.column ≠ sc) →
      ((∀ seg, svc.getOriginalSegment sl sc si Bias.LOWER_BOUND = some seg →
          matchesOrig sl si seg ∧ seg.column < sc) ∧
       (∀ segs, some segs ∈ svc.lines → ∀ s ∈ segs, matchesOrig sl si s → s.column < sc →
          ∃ seg, svc.getOriginalSegment sl sc si Bias.LOWER_BOUND = some seg ∧
            s.column ≤ seg.column) ∧
       (∀ seg, svc.getOriginalSegment sl sc si Bias.UPPER_BOUND = some seg →
          matchesOrig sl si seg ∧ sc < seg.column) ∧
       (∀ segs, some segs ∈ svc.lines → ∀ s ∈ segs, matchesOrig sl si s → sc < s.column →
          ∃ seg, svc.getOriginalSegment sl sc si Bias.UPPER_BOUND = some seg ∧
            seg.column ≤ s.column) ∧
       svc.getOriginalSegment sl sc si Bias.BOUND = none)) := by
  constructor
  · intro bias hex
    exact origLinesGo_exact sl sc si bias svc.lines none none hex
  · intro hnoex
    have hfl := origLinesGo_floor_char sl sc si svc.lines none none
      (fun s hs => by cases hs) (fun _ => rfl) hnoex
    have hce := origLinesGo_ceil_char sl sc si svc.lines none none
      (fun s hs => by cases hs) (fun _ => rfl) hnoex
    refine ⟨hfl.1, ?_, hce.1, ?_, ?_⟩
    · intro segs hmem s hs hm hlt
      exact hfl.2.1 segs hmem s hs hm hlt
    · intro segs hmem s hs hm hlt
      exact hce.2.1 segs hmem s hs hm hlt
    · exact origLinesGo_bound_none sl sc si svc.lines none none hnoex

/-- The frame of the reverse-lookup example: source columns {1, 5, 10} of
source index 0, source line 1. -/
def biasDemoFrame : List Segment :=
  [⟨1, 1, none, 0, 1, some 1⟩, ⟨1, 5, none, 0, 1, some 2⟩, ⟨1, 10, none, 0, 1, some 3⟩]

/-- A store holding exactly `biasDemoFrame`. -/
def biasDemoStore : MappingService :=
  ⟨[some biasDemoFrame], ⟨0, 0, 0⟩⟩

/-- C5, witness: on the store holding source columns {1, 5, 10} of source
0, line 1, the query at column 6 returns a floor hit in [5, 6), a ceil hit
in (6, 10], and nothing under the exact bias. -/
theorem getOriginalSegment_semantics_witness :
    (∃ seg, biasDemoStore.getOriginalSegment 1 6 0 Bias.LOWER_BOUND = some seg ∧
      5 ≤ seg.column ∧ seg.column < 6) ∧
    (∃ seg, biasDemoStore.getOriginalSegment 1 6 0 Bias.UPPER_BOUND = some seg ∧
      6 < seg.column ∧ seg.column ≤ 10) ∧
    biasDemoStore.getOriginalSegment 1 6 0 Bias.BOUND = none := by
  have hnoex : ∀ segs, some segs ∈ biasDemoStore.lines → ∀ s ∈ segs,
      matchesOrig 1 0 s → s.column ≠ 6 := by
    intro segs hmem s hs _
    have h2 : segs = biasDemoFrame := by
      have h3 := List.mem_singleton.mp hmem
      injection h3
    subst h2
    fin_cases hs <;> decide
  have h := (getOriginalSegment_semantics biasDemoStore 1 6 0).2 hnoex
  refine ⟨?_, ?_, h.2.2.2.2⟩
  · rcases h.2.1 biasDemoFrame (by decide) ⟨1, 5, none, 0, 1, some 2⟩ (by decide)
      (by decide) (by decide) with ⟨seg, hres, hle⟩
    exact ⟨seg, hres, hle, (h.1 seg hres).2⟩
  · rcases h.2.2.2.1 biasDemoFrame (by decide) ⟨1, 10, none, 0, 1, some 3⟩ (by decide)
      (by decide) (by decide) with ⟨seg, hres, hle⟩
    exact ⟨seg, hres, (h.2.2.1 seg hres).2, hle⟩

/-! ### C2: decode is a left inverse of encode on well-formed stores -/

theorem jsSplit_cons (sep c : Char) (cs : List Char) :
    jsSplit sep (c :: cs) = if c = sep then [] :: jsSplit sep cs
      else (c :: (jsSplit sep cs).headD []) :: (jsSplit sep cs).tail := rfl

theorem jsSplit_no_sep (sep : Char) (p : List Char) (h : sep ∉ p) :
    jsSplit sep p = [p] := by
  induction p with
  | nil => rfl
  | cons c cs ih =>
    have hc : ¬c = sep := fun hcc => h (by simp [hcc])
    have hcs : sep ∉ cs := fun hm => h (by simp [hm])
    rw [jsSplit_cons, ih hcs]
    simp [hc]

theorem jsSplit_append (sep : Char) (p rest : List Char) (h : sep ∉ p) :
    jsSplit sep (p ++ sep :: rest) = p :: jsSplit sep rest := by
  induction p with
  | nil => simp [jsSplit_cons]
  | cons c cs ih =>
    have hc : ¬c = sep := fun hcc => h (by simp [hcc])
    have hcs : sep ∉ cs := fun hm => h (by simp [hm])
    rw [List.cons_append, jsSplit_cons, ih hcs]
    simp [hc]

theorem jsSplit_jsJoin (sep : Char) (parts : List (List Char)) (hne : parts ≠ [])
    (hsep : ∀ p ∈ parts, sep ∉ p) :
    jsSplit sep (jsJoin sep parts) = parts := by
  induction parts with
  | nil => exact absurd rfl hne
  | cons p rest ih =>
    rcases rest with _ | ⟨q, rest⟩
    · exact jsSplit_no_sep sep p (hsep p (by simp))
    · have hj : jsJoin sep (p :: q :: rest) = p ++ sep :: jsJoin sep (q :: rest) := rfl
      rw [hj, jsSplit_append sep p _ (hsep p (by simp))]
      rw [ih (by simp) (fun r hr => hsep r (by simp [hr]))]

theorem b64Char_mem (d : Nat) : b64Char d ∈ BASE64 := by
  by_cases h : d < 64
  · exact (by decide : ∀ e < 64, b64Char e ∈ BASE64) d h
  · have hlen : BASE64.length = 64 := by decide
    unfold b64Char
    rw [List.getD_eq_default _ _ (by omega)]
    decide

theorem encVLQfuel_chars (fuel : Nat) :
    ∀ (u : Nat) (c : Char), c ∈ encVLQfuel fuel u → c ∈ BASE64 := by
  induction fuel with
  | zero =>
    intro u c hc
    cases hc
  | succ fuel ih =>
    intro u c hc
    unfold encVLQfuel at hc
    rw [List.mem_cons] at hc
    rcases hc with rfl | hc
    · exact b64Char_mem _
    · split at hc
      · exact ih _ c hc
      · cases hc

theorem encodeVLQ_chars (v : Int) (c : Char) (h : c ∈ encodeVLQ v) : c ∈ BASE64 :=
  encVLQfuel_chars _ _ c h

theorem encodeVLQNum_chars (o : Option Int) (c : Char) (h : c ∈ encodeVLQNum o) :
    c ∈ BASE64 := by
  rw [encodeVLQNum_eq] at h
  exact encodeVLQ_chars _ c h

theorem encodeVLQ_ne_nil (v : Int) : encodeVLQ v ≠ [] := by
  unfold encodeVLQ encVLQfuel
  simp

theorem encodeVLQNum_ne_nil (o : Option Int) : encodeVLQNum o ≠ [] := by
  rw [encodeVLQNum_eq]
  exact encodeVLQ_ne_nil _

theorem encodeSegment_chars (off : VLQOffset) (seg : Segment) (c : Char)
    (h : c ∈ (encodeSegment off seg).2) : c ∈ BASE64 := by
  unfold encodeSegment at h
  simp only [List.mem_flatten, List.mem_map] at h
  rcases h with ⟨l, ⟨o, _, rfl⟩, hc⟩
  exact encodeVLQNum_chars o c hc

theorem encodeSegment_ne_nil (off : VLQOffset) (seg : Segment) :
    (encodeSegment off seg).2 ≠ [] := by
  unfold encodeSegment encodeSegmentDeltas
  intro hcon
  simp only [List.map_cons, List.flatten] at hcon
  rcases List.append_eq_nil.mp hcon with ⟨h1, _⟩
  exact encodeVLQNum_ne_nil _ h1

/-- Field bounds that keep every VLQ delta within the decoder's safe range
(cf. the amended C1): 1-based positions in `[1, 2^30]`, indices in
`[0, 2^30 - 1]`, and a finite (non-`NaN`) generated column. -/
def inRangeSeg (seg : Segment) : Prop :=
  1 ≤ seg.line ∧ seg.line ≤ 2 ^ 30 ∧ 1 ≤ seg.column ∧ seg.column ≤ 2 ^ 30 ∧
  0 ≤ seg.sourceIndex ∧ seg.sourceIndex ≤ 2 ^ 30 - 1 ∧
  (∀ n, seg.nameIndex = some n → 0 ≤ n ∧ n ≤ 2 ^ 30 - 1) ∧
  (∃ g, seg.generatedColumn = some g ∧ 1 ≤ g ∧ g ≤ 2 ^ 30)

/-- The corresponding bounds on the running offset's persistent fields. -/
def inRangeOff4 (off : VLQOffset) : Prop :=
  0 ≤ off.line ∧ off.line ≤ 2 ^ 30 - 1 ∧ 0 ≤ off.column ∧ off.column ≤ 2 ^ 30 - 1 ∧
  0 ≤ off.sourceIndex ∧ off.sourceIndex ≤ 2 ^ 30 - 1 ∧
  0 ≤ off.nameIndex ∧ off.nameIndex ≤ 2 ^ 30 - 1

theorem encodeSegment_roundtrip (off : VLQOffset) (seg : Segment) (gl : Int)
    (hoff : inRangeOff4 off) (g0 : Int) (hg0 : off.generatedColumn = some g0)
    (hg0r : 0 ≤ g0 ∧ g0 ≤ 2 ^ 30 - 1) (hseg : inRangeSeg seg) :
    decodeVLQ (encodeSegment off seg).2
      = .ok ((encodeSegmentDeltas off seg).map (fun o => o.getD 0)) ∧
    decodeSegment { off with generatedLine := gl }
        ((encodeSegmentDeltas off seg).map (fun o => o.getD 0))
      = ({ (encodeSegment off seg).1 with generatedLine := gl },
         { seg with generatedLine := gl + 1 }) ∧
    inRangeOff4 (encodeSegment off seg).1 ∧
    (encodeSegment off seg).1.generatedColumn = seg.generatedColumn.map (· - 1) := by
  obtain ⟨h1, h2, h3, h4, h5, h6, h7, g, hg, hga, hgb⟩ := hseg
  obtain ⟨o1, o2, o3, o4, o5, o6, o7, o8⟩ := hoff
  have hdeltas : encodeSegmentDeltas off seg
      = [some ((g - 1) - g0), some (seg.sourceIndex - off.sourceIndex),
          some ((seg.line - 1) - off.line), some ((seg.column - 1) - off.column)]
        ++ (match seg.nameIndex with
            | some nameIdx => [some (nameIdx - off.nameIndex)]
            | none => []) := by
    unfold encodeSegmentDeltas
    rw [hg, hg0]
    rfl
  refine ⟨?_, ?_, ?_, ?_⟩
  · rw [encodeSegment_string]
    refine decodeVLQgo_encodeArrayVLQ _ 0 (fun x hx => ?_)
    rw [hdeltas] at hx
    rcases List.mem_map.mp hx with ⟨o, ho, rfl⟩
    rcases hnm : seg.nameIndex with _ | n
    · rw [hnm] at ho
      simp only [List.append_nil, List.mem_cons, List.not_mem_nil, or_false] at ho
      rcases ho with rfl | rfl | rfl | rfl <;> simp only [Option.getD_some] <;> omega
    · rw [hnm] at ho
      rcases h7 n hnm with ⟨hn1, hn2⟩
      simp only [List.cons_append, List.nil_append, List.mem_cons,
        List.not_mem_nil, or_false] at ho
      rcases ho with rfl | rfl | rfl | rfl | rfl <;> simp only [Option.getD_some] <;> omega
  · rcases hnm : seg.nameIndex with _ | n
    · rw [hdeltas, hnm]
      simp only [List.append_nil, List.map_cons, List.map_nil, Option.getD_some]
      unfold decodeSegment
      simp only [List.head?_cons, List.getD_cons_succ, List.getD_cons_zero, List.get?_cons_succ,
        List.get?_cons_zero, List.get?_nil, hg0]
      rcases seg with ⟨sline, scol, snm, ssi, sgl, sgc⟩
      simp only at hnm hg ⊢
      subst hnm
      subst hg
      dsimp only [encodeSegment]
      simp only [Prod.mk.injEq, VLQOffset.mk.injEq, Segment.mk.injEq,
        Option.map_some', Option.some.injEq, and_true, true_and]
      omega
    · rw [hdeltas, hnm]
      simp only [List.cons_append, List.nil_append, List.map_cons, List.map_nil,
        Option.getD_some]
      unfold decodeSegment
      simp only [List.head?_cons, List.getD_cons_succ, List.getD_cons_zero, List.get?_cons_succ,
        List.get?_cons_zero, List.get?_nil, hg0]
      rcases seg with ⟨sline, scol, snm, ssi, sgl, sgc⟩
      simp only at hnm hg ⊢
      subst hnm
      subst hg
      dsimp only [encodeSegment]
      simp only [Prod.mk.injEq, VLQOffset.mk.injEq, Segment.mk.injEq,
        Option.map_some', Option.some.injEq, and_true, true_and]
      omega
  · rcases hnm : seg.nameIndex with _ | n
    · unfold inRangeOff4
      dsimp only [encodeSegment]
      simp only [hnm]
      refine ⟨by omega, by omega, by omega, by omega, by omega, by omega, o7, o8⟩
    · rcases h7 n hnm with ⟨hn1, hn2⟩
      unfold inRangeOff4
      dsimp only [encodeSegment]
      simp only [hnm]
      exact ⟨by omega, by omega, by omega, by omega, by omega, by omega, hn1, hn2⟩
  · unfold encodeSegment
    rfl

theorem encodeSegmentsGo_parts (segs : List Segment) :
    ∀ (off : VLQOffset) (p : List Char), p ∈ (encodeSegmentsGo off segs).2 →
      (∀ c ∈ p, c ∈ BASE64) ∧ p ≠ [] := by
  induction segs with
  | nil =>
    intro off p hp
    simp [encodeSegmentsGo] at hp
  | cons s rest ih =>
    intro off p hp
    simp only [encodeSegmentsGo, List.mem_cons] at hp
    rcases hp with rfl | hp
    · exact ⟨fun c hc => encodeSegment_chars off s c hc, encodeSegment_ne_nil off s⟩
    · exact ih _ p hp

theorem jsJoin_cons_ne_nil (sep : Char) (p : List Char) (rest : List (List Char))
    (hp : p ≠ []) : jsJoin sep (p :: rest) ≠ [] := by
  rcases rest with _ | ⟨q, rest⟩
  · exact hp
  · simp [jsJoin]

theorem decodeRawSegments_encodeSegmentsGo (segs : List Segment) :
    ∀ (off : VLQOffset) (gl g0 : Int),
      inRangeOff4 off → off.generatedColumn = some g0 → 0 ≤ g0 → g0 ≤ 2 ^ 30 - 1 →
      (∀ s ∈ segs, inRangeSeg s) →
      decodeRawSegments 0 false { off with generatedLine := gl }
          (encodeSegmentsGo off segs).2
        = .ok ({ (encodeSegmentsGo off segs).1 with generatedLine := gl },
               segs.map (fun s => { s with generatedLine := gl + 1 }))
      ∧ inRangeOff4 (encodeSegmentsGo off segs).1
      ∧ ∃ g1, (encodeSegmentsGo off segs).1.generatedColumn = some g1
          ∧ 0 ≤ g1 ∧ g1 ≤ 2 ^ 30 - 1 := by
  induction segs with
  | nil =>
    intro off gl g0 hoff hg0 hg0a hg0b _
    exact ⟨rfl, hoff, ⟨g0, hg0, hg0a, hg0b⟩⟩
  | cons s rest ih =>
    intro off gl g0 hoff hg0 hg0a hg0b hsegs
    have hs : inRangeSeg s := hsegs s (List.mem_cons_self s rest)
    obtain ⟨hdec, hsegEq, hoff1, hgc1⟩ :=
      encodeSegment_roundtrip off s gl hoff g0 hg0 ⟨hg0a, hg0b⟩ hs
    obtain ⟨g, hg, hga, hgb⟩ := hs.2.2.2.2.2.2.2
    have hgc1s : (encodeSegment off s).1.generatedColumn = some (g - 1) := by
      rw [hgc1, hg]
      rfl
    obtain ⟨ihdec, ihoff, ihgc⟩ :=
      ih (encodeSegment off s).1 gl (g - 1) hoff1 hgc1s (by omega) (by omega)
        (fun t ht => hsegs t (List.mem_cons_of_mem s ht))
    have henc : encodeSegmentsGo off (s :: rest)
        = ((encodeSegmentsGo (encodeSegment off s).1 rest).1,
           (encodeSegment off s).2 :: (encodeSegmentsGo (encodeSegment off s).1 rest).2) := rfl
    rw [henc]
    refine ⟨?_, ihoff, ihgc⟩
    have hstep : decodeRawSegments 0 false { off with generatedLine := gl }
        ((encodeSegment off s).2 :: (encodeSegmentsGo (encodeSegment off s).1 rest).2)
        = match decodeVLQ (encodeSegment off s).2 with
          | .error e => .error e
          | .ok deltas =>
            let p := decodeSegment { off with generatedLine := gl } deltas
            let seg := if false
              then { p.2 with generatedLine := p.2.generatedLine + 0 }
              else p.2
            match decodeRawSegments 0 false p.1
                (encodeSegmentsGo (encodeSegment off s).1 rest).2 with
            | .error e => .error e
            | .ok q => .ok (q.1, seg :: q.2) := rfl
    rw [hstep, hdec]
    dsimp only
    rw [hsegEq]
    dsimp only
    rw [ihdec]
    rfl

/-- Executable form of `inRangeSeg`. -/
def inRangeSegB (seg : Segment) : Bool :=
  decide (1 ≤ seg.line) && decide (seg.line ≤ 2 ^ 30) &&
  decide (1 ≤ seg.column) && decide (seg.column ≤ 2 ^ 30) &&
  decide (0 ≤ seg.sourceIndex) && decide (seg.sourceIndex ≤ 2 ^ 30 - 1) &&
  (match seg.nameIndex with
   | some n => decide (0 ≤ n) && decide (n ≤ 2 ^ 30 - 1)
   | none => true) &&
  (match seg.generatedColumn with
   | some g => decide (1 ≤ g) && decide (g ≤ 2 ^ 30)
   | none => false)

theorem inRangeSeg_of_B (seg : Segment) (h : inRangeSegB seg = true) : inRangeSeg seg := by
  unfold inRangeSegB at h
  unfold inRangeSeg
  rcases hnm : seg.nameIndex with _ | n <;> rcases hgc : seg.generatedColumn with _ | g <;>
      rw [hnm, hgc] at h <;>
      simp only [Bool.and_eq_true, Bool.and_true, Bool.and_false, Bool.false_eq_true,
        decide_eq_true_eq] at h
  · refine ⟨by omega, by omega, by omega, by omega, by omega, by omega,
      fun m hm => ?_, ⟨g, rfl, by omega, by omega⟩⟩
    cases hm
  · refine ⟨by omega, by omega, by omega, by omega, by omega, by omega,
      fun m hm => ?_, ⟨g, rfl, by omega, by omega⟩⟩
    injection hm with hm
    subst hm
    constructor <;> omega

/-- Executable well-formedness of a store: every frame is present and
non-empty with every segment in the safe VLQ range. -/
def wfLines (lines : SourceMappingType) : Bool :=
  lines.all fun fr =>
    match fr with
    | none => true
    | some segs => !segs.isEmpty && segs.all inRangeSegB

/-- The canonical store produced by re-decoding: frame `i + j` (0-based,
shifted by `lineAppendOffset`) holds its segments with `generatedLine`
rewritten to the 1-based frame index. -/
def canonLines (lineAppendOffset i : Nat) : SourceMappingType → SourceMappingType
  | [] => []
  | none :: rest => none :: canonLines lineAppendOffset (i + 1) rest
  | some segs :: rest =>
    some (segs.map fun s =>
        { s with generatedLine := (lineAppendOffset : Int) + (i : Int) + 1 })
      :: canonLines lineAppendOffset (i + 1) rest

theorem decodeMappingLinesGo_encode (lines : SourceMappingType) :
    ∀ (offE : VLQOffset) (glD : Int) (gcD : Option Int) (acc : SourceMappingType)
      (i la : Nat),
      inRangeOff4 offE → wfLines lines = true →
      decodeMappingLinesGo la 0 false
          { offE with generatedLine := glD, generatedColumn := gcD } acc i
          (encodeSourceMappingGo offE lines)
        = (.ok (), acc ++ canonLines la i lines) := by
  induction lines with
  | nil =>
    intro offE glD gcD acc i la _ _
    simp [encodeSourceMappingGo, decodeMappingLinesGo, canonLines]
  | cons fr rest ih =>
    intro offE glD gcD acc i la hoff hwf
    rw [wfLines, List.all_cons, Bool.and_eq_true] at hwf
    rcases fr with _ | segs
    · have henc : encodeSourceMappingGo offE (none :: rest)
          = [] :: encodeSourceMappingGo { offE with generatedColumn := some 0 } rest := rfl
      rw [henc]
      have hstep : decodeMappingLinesGo la 0 false
            { offE with generatedLine := glD, generatedColumn := gcD } acc i
            ([] :: encodeSourceMappingGo { offE with generatedColumn := some 0 } rest)
          = decodeMappingLinesGo la 0 false
            { offE with generatedLine := glD, generatedColumn := gcD } (acc ++ [none]) (i + 1)
            (encodeSourceMappingGo { offE with generatedColumn := some 0 } rest) := rfl
      rw [hstep]
      have hoff2 : inRangeOff4 { offE with generatedColumn := some 0 } := hoff
      have := ih { offE with generatedColumn := some 0 } glD gcD (acc ++ [none]) (i + 1) la
        hoff2 hwf.2
      rw [this]
      simp [canonLines]
    · have hwseg := hwf.1
      rw [Bool.and_eq_true] at hwseg
      have hsegs_ne : segs ≠ [] := by
        intro hcon
        rw [hcon] at hwseg
        simp at hwseg
      have hsegs_rng : ∀ s ∈ segs, inRangeSeg s := by
        intro s hsmem
        exact inRangeSeg_of_B s (by
          have := hwseg.2
          rw [List.all_eq_true] at this
          exact this s hsmem)
      have henc : encodeSourceMappingGo offE (some segs :: rest)
          = jsJoin ',' (encodeSegmentsGo { offE with generatedColumn := some 0 } segs).2
            :: encodeSourceMappingGo
                (encodeSegmentsGo { offE with generatedColumn := some 0 } segs).1 rest := rfl
      rw [henc]
      rcases hsegs_split : segs with _ | ⟨s0, srest⟩
      · exact absurd hsegs_split hsegs_ne
      rw [← hsegs_split]
      have hparts : (encodeSegmentsGo { offE with generatedColumn := some 0 } segs).2
          = (encodeSegment { offE with generatedColumn := some 0 } s0).2
            :: (encodeSegmentsGo
                  (encodeSegment { offE with generatedColumn := some 0 } s0).1 srest).2 := by
        rw [hsegs_split]
        rfl
      have hline_ne : jsJoin ','
          (encodeSegmentsGo { offE with generatedColumn := some 0 } segs).2 ≠ [] := by
        rw [hparts]
        exact jsJoin_cons_ne_nil ',' _ _ (encodeSegment_ne_nil _ _)
      have hline_empty : (jsJoin ','
          (encodeSegmentsGo { offE with generatedColumn := some 0 } segs).2).isEmpty
            = false := by
        rcases hj : jsJoin ','
            (encodeSegmentsGo { offE with generatedColumn := some 0 } segs).2 with _ | ⟨c, cs⟩
        · exact absurd hj hline_ne
        · rfl
      have hsplit : jsSplit ','
          (jsJoin ',' (encodeSegmentsGo { offE with generatedColumn := some 0 } segs).2)
          = (encodeSegmentsGo { offE with generatedColumn := some 0 } segs).2 := by
        refine jsSplit_jsJoin ',' _ (by rw [hparts]; exact List.cons_ne_nil _ _) ?_
        intro p hp hcomma
        have hchars := (encodeSegmentsGo_parts segs _ p hp).1 ',' hcomma
        exact (by decide : (',' : Char) ∉ BASE64) hchars
      obtain ⟨hdec, hoffNext, hgcNext⟩ :=
        decodeRawSegments_encodeSegmentsGo segs { offE with generatedColumn := some 0 }
          ((la : Int) + (i : Int)) 0 hoff rfl (by omega) (by omega) hsegs_rng
      have hstep : decodeMappingLinesGo la 0 false
            { offE with generatedLine := glD, generatedColumn := gcD } acc i
            (jsJoin ',' (encodeSegmentsGo { offE with generatedColumn := some 0 } segs).2
              :: encodeSourceMappingGo
                  (encodeSegmentsGo { offE with generatedColumn := some 0 } segs).1 rest)
          = if (jsJoin ','
                (encodeSegmentsGo { offE with generatedColumn := some 0 } segs).2).isEmpty then
              decodeMappingLinesGo la 0 false
                { offE with generatedLine := glD, generatedColumn := gcD } (acc ++ [none])
                (i + 1)
                (encodeSourceMappingGo
                  (encodeSegmentsGo { offE with generatedColumn := some 0 } segs).1 rest)
            else
              match decodeRawSegments 0 false
                  ({ offE with generatedColumn := some 0, generatedLine := (la : Int) + (i : Int) })
                  (jsSplit ','
                    (jsJoin ','
                      (encodeSegmentsGo { offE with generatedColumn := some 0 } segs).2)) with
              | .error e => (.error (lineErrMsg i e), acc)
              | .ok p =>
                decodeMappingLinesGo la 0 false p.1 (acc ++ [some p.2]) (i + 1)
                  (encodeSourceMappingGo
                    (encodeSegmentsGo { offE with generatedColumn := some 0 } segs).1 rest) := rfl
      rw [hstep, hline_empty, hsplit]
      simp only [Bool.false_eq_true, if_false]
      rw [hdec]
      dsimp only
      rw [ih (encodeSegmentsGo { offE with generatedColumn := some 0 } segs).1
        ((la : Int) + (i : Int))
        (encodeSegmentsGo { offE with generatedColumn := some 0 } segs).1.generatedColumn
        _ (i + 1) la hoffNext hwf.2]
      rw [canonLines]
      simp only [List.append_assoc, List.cons_append, List.nil_append]

theorem jsJoin_chars (sep : Char) (parts : List (List Char)) (c : Char)
    (h : c ∈ jsJoin sep parts) : c = sep ∨ ∃ p ∈ parts, c ∈ p := by
  induction parts with
  | nil => cases h
  | cons p rest ih =>
    rcases rest with _ | ⟨q, rest⟩
    · exact Or.inr ⟨p, List.mem_singleton.mpr rfl, h⟩
    · rw [jsJoin] at h
      rcases List.mem_append.mp h with hp | hs
      · exact Or.inr ⟨p, List.mem_cons_self p _, hp⟩
      · rcases List.mem_cons.mp hs with rfl | hj
        · exact Or.inl rfl
        · rcases ih hj with hsep | ⟨p2, hp2, hc2⟩
          · exact Or.inl hsep
          · exact Or.inr ⟨p2, List.mem_cons_of_mem p hp2, hc2⟩

theorem encodeSourceMappingGo_parts (lines : SourceMappingType) :
    ∀ (off : VLQOffset) (p : List Char), p ∈ encodeSourceMappingGo off lines →
      ∀ c ∈ p, c ∈ BASE64 ∨ c = ',' := by
  induction lines with
  | nil =>
    intro off p hp
    cases hp
  | cons fr rest ih =>
    intro off p hp c hc
    rcases fr with _ | segs
    · rcases List.mem_cons.mp hp with rfl | hp2
      · cases hc
      · exact ih _ p hp2 c hc
    · rcases List.mem_cons.mp hp with rfl | hp2
      · rcases jsJoin_chars ',' _ c hc with rfl | ⟨q, hq, hcq⟩
        · exact Or.inr rfl
        · exact Or.inl ((encodeSegmentsGo_parts segs _ q hq).1 c hcq)
      · exact ih _ p hp2 c hc

theorem encodeSourceMappingGo_ne_nil (off : VLQOffset) (lines : SourceMappingType)
    (h : lines ≠ []) : encodeSourceMappingGo off lines ≠ [] := by
  rcases lines with _ | ⟨fr, rest⟩
  · exact absurd rfl h
  · rcases fr with _ | segs <;> simp [encodeSourceMappingGo]

theorem validate_encodeSourceMapping (lines : SourceMappingType)
    (hne : encodeSourceMapping lines ≠ []) :
    validateSourceMappingString (encodeSourceMapping lines) = true := by
  unfold validateSourceMappingString
  rw [Bool.and_eq_true]
  constructor
  · rcases hj : encodeSourceMapping lines with _ | ⟨c, cs⟩
    · exact absurd hj hne
    · rfl
  · rw [List.all_eq_true]
    intro c hc
    unfold encodeSourceMapping at hc
    rcases jsJoin_chars ';' _ c hc with rfl | ⟨p, hp, hcp⟩
    · decide
    · rcases encodeSourceMappingGo_parts lines _ p hp c hcp with hb | rfl
      · exact (by decide : ∀ d ∈ BASE64, isMappingChar d = true) c hb
      · decide

theorem jsSplit_encodeSourceMapping (lines : SourceMappingType) (h : lines ≠ []) :
    jsSplit ';' (encodeSourceMapping lines)
      = encodeSourceMappingGo (createOffset 0 0) lines := by
  unfold encodeSourceMapping
  refine jsSplit_jsJoin ';' _ (encodeSourceMappingGo_ne_nil _ _ h) ?_
  intro p hp hsc
  rcases encodeSourceMappingGo_parts lines _ p hp ';' hsc with hb | hcomma
  · exact (by decide : (';' : Char) ∉ BASE64) hb
  · cases hcomma

/-- C2, counterexample: the round-trip is not a *string* identity.  The
string `"gAAAA"` passes charset validation and decodes without error (an
overlong VLQ: `"gA"` encodes 0 in two chunks), but re-encoding the
resulting store emits the canonical `"AAAA"`, not `"gAAAA"`. -/
theorem mapping_roundtrip_not_string_identity :
    validateSourceMappingString ("gAAAA".data) = true ∧
    (decodeSourceMappingString [] ("gAAAA".data) 0 0 0).1 = .ok () ∧
    encodeSourceMapping (decodeSourceMappingString [] ("gAAAA".data) 0 0 0).2
      = "AAAA".data ∧
    encodeSourceMapping (decodeSourceMappingString [] ("gAAAA".data) 0 0 0).2
      ≠ "gAAAA".data := by decide

/-- C2 (amended): the round-trip holds at the segment level, and as a string
identity exactly on canonically encoded strings.  For every well-formed
store (frames present and non-empty, fields in the decoder-safe range,
`generatedLine` equal to the 1-based frame index) whose encoding is
non-empty, decoding `encodeSourceMapping lines` into an empty service with
zero offsets succeeds and reproduces `lines` exactly — hence
`decode_string(encode())` yields the same segment sequence, and `encode ∘
decode ∘ encode = encode` (the encoded form is the canonical
representative of its decode). -/
theorem decode_encode_roundtrip (lines : SourceMappingType)
    (hwf : wfLines lines = true)
    (hgl : canonLines 0 0 lines = lines)
    (hne : encodeSourceMapping lines ≠ []) :
    decodeSourceMappingString [] (encodeSourceMapping lines) 0 0 0
      = (.ok (), lines) := by
  have hlines_ne : lines ≠ [] := by
    intro hcon
    rw [hcon] at hne
    exact hne rfl
  unfold decodeSourceMappingString
  rw [validate_encodeSourceMapping lines hne]
  simp only [Bool.not_true, Bool.false_eq_true, if_false]
  rw [jsSplit_encodeSourceMapping lines hlines_ne]
  have hdecide : decide ((0 : Int) ≠ 0) = false := by decide
  rw [hdecide]
  rw [List.length_nil]
  have h := decodeMappingLinesGo_encode lines (createOffset 0 0) 0 (some 0) [] 0 0
    (by unfold inRangeOff4 createOffset; norm_num) hwf
  rw [List.nil_append, hgl] at h
  exact h

/-- C2, witness: a concrete canonical two-frame store (one frame with a
named segment) encodes and decodes back to itself. -/
theorem decode_encode_roundtrip_witness :
    wfLines [some [⟨1, 1, none, 0, 1, some 1⟩], none, some [⟨2, 3, some 0, 1, 3, some 2⟩]]
        = true ∧
    canonLines 0 0
        [some [⟨1, 1, none, 0, 1, some 1⟩], none, some [⟨2, 3, some 0, 1, 3, some 2⟩]]
      = [some [⟨1, 1, none, 0, 1, some 1⟩], none, some [⟨2, 3, some 0, 1, 3, some 2⟩]] ∧
    encodeSourceMapping
        [some [⟨1, 1, none, 0, 1, some 1⟩], none, some [⟨2, 3, some 0, 1, 3, some 2⟩]] ≠ [] ∧
    decodeSourceMappingString []
        (encodeSourceMapping
          [some [⟨1, 1, none, 0, 1, some 1⟩], none, some [⟨2, 3, some 0, 1, 3, some 2⟩]])
        0 0 0
      = (.ok (),
         [some [⟨1, 1, none, 0, 1, some 1⟩], none, some [⟨2, 3, some 0, 1, 3, some 2⟩]]) :=
  ⟨by decide, by decide, by decide,
    decode_encode_roundtrip
      [some [⟨1, 1, none, 0, 1, some 1⟩], none, some [⟨2, 3, some 0, 1, 3, some 2⟩]]
      (by decide) (by decide) (by decide)⟩

/-! ### The `SourceService` facade (`mapping-service.spec.ts` embedded source) -/

/-- `toPosix`'s `/\/+/g → '/'` replacement: collapse every run of forward
slashes to a single one. -/
def squeezeSlashes : List Char → List Char
  | [] => []
  | [c] => [c]
  | a :: b :: rest =>
    if a = '/' ∧ b = '/' then squeezeSlashes (b :: rest)
    else a :: squeezeSlashes (b :: rest)

/-- `toPosix`: empty (JS falsy) input maps to the empty string; otherwise
backslashes become forward slashes and duplicate slashes collapse. -/
def toPosix (input : List Char) : List Char :=
  if input.isEmpty then []
  else squeezeSlashes (input.map fun c => if c = '\\' then '/' else c)

/-- The source-map envelope (`SourceMapInterface`), in its typed form:
the dynamic type checks of `normalizeSourceMap` hold by construction. -/
structure SourceMapInterface where
  version : Int
  file : Option (List Char)
  sourceRoot : Option (List Char)
  names : Option (List (List Char))
  sources : List (List Char)
  sourcesContent : Option (List (List Char))
  mappings : List Char
deriving DecidableEq

/-- `SourceService.normalizeSourceMap` on a typed envelope: paths are
normalised, a missing (or JS-falsy) `file`/`sourceRoot` becomes absent,
missing `names` becomes `[]`, and `mappings` is kept verbatim. -/
def normalizeSourceMap (sm : SourceMapInterface) : SourceMapInterface :=
  { sm with
    file :=
      match sm.file with
      | some f => if f.isEmpty then none else some (toPosix f)
      | none => none
    sourceRoot :=
      match sm.sourceRoot with
      | some r => if r.isEmpty then none else some (toPosix r)
      | none => none
    names := some (sm.names.getD [])
    sources := sm.sources.map toPosix }

/-- `SourceService.getMappingLineCount`: 0 for the empty string, else the
number of `;`-separated frames. -/
def getMappingLineCount (mappings : List Char) : Nat :=
  if mappings.isEmpty then 0 else (jsSplit ';' mappings).length

/-- The `SourceService` state: the normalised envelope, the inner
`MappingService`, and the running generated-line count. -/
structure SourceService where
  sourceMap : SourceMapInterface
  mappingsService : MappingService
  generatedLineCount : Nat
deriving DecidableEq

/-- The `SourceService` constructor on a typed envelope: normalise, then
`loadMappings` — the line count is taken first, an empty `mappings` string
returns early without touching the store, otherwise the string is decoded
(errors propagate out of the constructor) and re-encoded into the
envelope. -/
def SourceService.create (sm : SourceMapInterface) : Except String SourceService :=
  let nsm := normalizeSourceMap sm
  let glc := getMappingLineCount nsm.mappings
  if nsm.mappings.isEmpty then
    .ok { sourceMap := nsm, mappingsService := MappingService.empty, generatedLineCount := glc }
  else
    let p := MappingService.empty.decodeString nsm.mappings 0 0 0
    match p.1 with
    | .error e => .error e
    | .ok _ =>
      .ok { sourceMap := { nsm with mappings := p.2.encode },
            mappingsService := p.2, generatedLineCount := glc }

/-- `SourceService.appendSourceMap`: record the three offsets, push the
incoming `names`/`sources`/`sourcesContent`, decode a non-empty `mappings`
string into the existing store with those offsets (on error the pushed
arrays and the partially decoded store remain — the source mutates in
place — and the line count and envelope `mappings` stay untouched), then
bump the line count and re-encode. -/
def SourceService.appendSourceMap (svc : SourceService) (map : SourceMapInterface) :
    Except String Unit × SourceService :=
  let namesOffset : Int := ((svc.sourceMap.names.getD []).length : Int)
  let sourcesOffset : Int := (svc.sourceMap.sources.length : Int)
  let lineOffset : Int := (svc.generatedLineCount : Int)
  let incomingLineCount := getMappingLineCount map.mappings
  let names1 :=
    match map.names with
    | some ns =>
      if 0 < ns.length then some (svc.sourceMap.names.getD [] ++ ns) else svc.sourceMap.names
    | none => svc.sourceMap.names
  let sources1 :=
    if 0 < map.sources.length then svc.sourceMap.sources ++ map.sources.map toPosix
    else svc.sourceMap.sources
  let sourcesContent1 :=
    match map.sourcesContent with
    | some sc =>
      if 0 < sc.length then some (svc.sourceMap.sourcesContent.getD [] ++ sc)
      else
        match svc.sourceMap.sourcesContent with
        | some cur => some (cur ++ List.replicate map.sources.length [])
        | none => none
    | none =>
      match svc.sourceMap.sourcesContent with
      | some cur => some (cur ++ List.replicate map.sources.length [])
      | none => none
  let sm1 := { svc.sourceMap with
    names := names1, sources := sources1, sourcesContent := sourcesContent1 }
  if map.mappings.isEmpty then
    (.ok (), { sourceMap := { sm1 with mappings := svc.mappingsService.encode },
               mappingsService := svc.mappingsService,
               generatedLineCount := svc.generatedLineCount + incomingLineCount })
  else
    let p := svc.mappingsService.decodeString map.mappings namesOffset sourcesOffset lineOffset
    match p.1 with
    | .error e =>
      (.error e, { sourceMap := sm1, mappingsService := p.2,
                   generatedLineCount := svc.generatedLineCount })
    | .ok _ =>
      (.ok (), { sourceMap := { sm1 with mappings := p.2.encode },
                 mappingsService := p.2,
                 generatedLineCount := svc.generatedLineCount + incomingLineCount })

/-- `SourceService.concat` with a single source-map argument: normalise it
and append. -/
def SourceService.concat1 (svc : SourceService) (map : SourceMapInterface) :
    Except String Unit × SourceService :=
  svc.appendSourceMap (normalizeSourceMap map)

/-- `GeneratedPositionResult` / `OriginalPositionResult` (same shape). -/
structure PositionResult where
  generatedLine : Int
  generatedColumn : Option Int
  sourceLine : Int
  sourceColumn : Int
  sourceIndex : Int
  sourcePath : List Char
  sourceContent : Option (List Char)
  nameIndex : Option Int
  name : Option (List Char)
deriving DecidableEq

/-- `SourceService.toPositionResult`: resolve `sourcePath` (missing index
reads as `''`), optionally the content, and the `name` behind a present
`nameIndex`. -/
def SourceService.toPositionResult (svc : SourceService) (segment : Segment)
    (includeContent : Bool) : PositionResult :=
  { generatedLine := segment.generatedLine
    generatedColumn := segment.generatedColumn
    sourceLine := segment.line
    sourceColumn := segment.column
    sourceIndex := segment.sourceIndex
    sourcePath :=
      if 0 ≤ segment.sourceIndex then svc.sourceMap.sources.getD segment.sourceIndex.toNat []
      else []
    sourceContent :=
      if includeContent then
        match svc.sourceMap.sourcesContent with
        | some sc => if 0 ≤ segment.sourceIndex then sc.get? segment.sourceIndex.toNat else none
        | none => none
      else none
    nameIndex := segment.nameIndex
    name :=
      match segment.nameIndex with
      | some ni =>
        match svc.sourceMap.names with
        | some ns => if 0 ≤ ni then ns.get? ni.toNat else none
        | none => none
      | none => none }

/-- `SourceService.mapGeneratedPosition`. -/
def SourceService.mapGeneratedPosition (svc : SourceService) (line column : Int)
    (bias : Bias) : Option PositionResult :=
  (svc.mappingsService.getSegment line column bias).map (svc.toPositionResult · false)

/-- `SourceService.mapOriginalPosition`. -/
def SourceService.mapOriginalPosition (svc : SourceService) (line column sourceIndex : Int)
    (bias : Bias) : Option PositionResult :=
  (svc.mappingsService.getOriginalSegment line column sourceIndex bias).map
    (svc.toPositionResult · false)

/-- C10: constructing `SourceService` from an envelope whose `mappings` is
the empty string succeeds for every choice of the other (typed) fields:
the empty string is never handed to the mapping store (whose validation
would reject it), the store stays empty, `generatedLineCount` is 0, and
every generated- or original-position lookup returns `none`. -/
theorem facade_accepts_empty_mappings (version : Int) (file sourceRoot : Option (List Char))
    (names : Option (List (List Char))) (sources : List (List Char))
    (sourcesContent : Option (List (List Char))) :
    ∃ svc,
      SourceService.create
          ⟨version, file, sourceRoot, names, sources, sourcesContent, []⟩ = .ok svc ∧
      svc.mappingsService.lines = [] ∧
      svc.generatedLineCount = 0 ∧
      ∀ (line column sourceIndex : Int) (bias : Bias),
        svc.mapGeneratedPosition line column bias = none ∧
        svc.mapOriginalPosition line column sourceIndex bias = none := by
  refine ⟨_, rfl, rfl, rfl, ?_⟩
  intro line column sourceIndex bias
  constructor
  · unfold SourceService.mapGeneratedPosition
    have h : MappingService.getSegment
        { lines := [], offsets := { line := 0, name := 0, sources := 0 } }
        line column bias = none := by
      unfold MappingService.getSegment
      dsimp only
      split_ifs <;> simp [List.getD]
    dsimp only [SourceService.create, MappingService.empty]
    rw [h]
    rfl
  · rfl

/-- A segment as it lands in the store after an offset decode: `sourceIndex`
shifted by the sources offset, a present `nameIndex` by the names offset,
and `generatedLine` replaced outright. -/
def shiftSeg (sOff nOff glNew : Int) (s : Segment) : Segment :=
  { s with
    sourceIndex := s.sourceIndex + sOff
    nameIndex := s.nameIndex.map (· + nOff)
    generatedLine := glNew }

theorem decodeSegment_shift (off : VLQOffset) (seg : Segment) (gl sOff nOff : Int)
    (hoff : inRangeOff4 off) (g0 : Int) (hg0 : off.generatedColumn = some g0)
    (hseg : inRangeSeg seg) :
    decodeSegment
        { off with
            generatedLine := gl
            sourceIndex := off.sourceIndex + sOff
            nameIndex := off.nameIndex + nOff }
        ((encodeSegmentDeltas off seg).map (fun o => o.getD 0))
      = ({ (encodeSegment off seg).1 with
            generatedLine := gl
            sourceIndex := (encodeSegment off seg).1.sourceIndex + sOff
            nameIndex := (encodeSegment off seg).1.nameIndex + nOff },
         shiftSeg sOff nOff (gl + 1) seg) := by
  obtain ⟨h1, h2, h3, h4, h5, h6, h7, g, hg, hga, hgb⟩ := hseg
  obtain ⟨o1, o2, o3, o4, o5, o6, o7, o8⟩ := hoff
  have hdeltas : encodeSegmentDeltas off seg
      = [some ((g - 1) - g0), some (seg.sourceIndex - off.sourceIndex),
          some ((seg.line - 1) - off.line), some ((seg.column - 1) - off.column)]
        ++ (match seg.nameIndex with
            | some nameIdx => [some (nameIdx - off.nameIndex)]
            | none => []) := by
    unfold encodeSegmentDeltas
    rw [hg, hg0]
    rfl
  rcases hnm : seg.nameIndex with _ | n
  · rw [hdeltas, hnm]
    simp only [List.append_nil, List.map_cons, List.map_nil, Option.getD_some]
    unfold decodeSegment shiftSeg
    simp only [List.head?_cons, List.getD_cons_succ, List.getD_cons_zero, List.get?_cons_succ,
      List.get?_cons_zero, List.get?_nil, hg0]
    rcases seg with ⟨sline, scol, snm, ssi, sgl, sgc⟩
    simp only at hnm hg ⊢
    subst hnm
    subst hg
    dsimp only [encodeSegment]
    simp only [Prod.mk.injEq, VLQOffset.mk.injEq, Segment.mk.injEq,
      Option.map_some', Option.map_none', Option.some.injEq, and_true, true_and]
    omega
  · rw [hdeltas, hnm]
    simp only [List.cons_append, List.nil_append, List.map_cons, List.map_nil,
      Option.getD_some]
    unfold decodeSegment shiftSeg
    simp only [List.head?_cons, List.getD_cons_succ, List.getD_cons_zero, List.get?_cons_succ,
      List.get?_cons_zero, List.get?_nil, hg0]
    rcases seg with ⟨sline, scol, snm, ssi, sgl, sgc⟩
    simp only at hnm hg ⊢
    subst hnm
    subst hg
    dsimp only [encodeSegment]
    simp only [Prod.mk.injEq, VLQOffset.mk.injEq, Segment.mk.injEq,
      Option.map_some', Option.map_none', Option.some.injEq, and_true, true_and]
    omega

theorem decodeRawSegments_encodeSegmentsGo_shift (segs : List Segment) :
    ∀ (off : VLQOffset) (gl g0 sOff nOff lOff : Int) (applyB : Bool),
      inRangeOff4 off → off.generatedColumn = some g0 → 0 ≤ g0 → g0 ≤ 2 ^ 30 - 1 →
      (∀ s ∈ segs, inRangeSeg s) →
      decodeRawSegments lOff applyB
          { off with
              generatedLine := gl
              sourceIndex := off.sourceIndex + sOff
              nameIndex := off.nameIndex + nOff }
          (encodeSegmentsGo off segs).2
        = .ok ({ (encodeSegmentsGo off segs).1 with
                  generatedLine := gl
                  sourceIndex := (encodeSegmentsGo off segs).1.sourceIndex + sOff
                  nameIndex := (encodeSegmentsGo off segs).1.nameIndex + nOff },
               segs.map (shiftSeg sOff nOff (gl + 1 + if applyB then lOff else 0))) := by
  induction segs with
  | nil =>
    intro off gl g0 sOff nOff lOff applyB hoff hg0 hg0a hg0b _
    rfl
  | cons s rest ih =>
    intro off gl g0 sOff nOff lOff applyB hoff hg0 hg0a hg0b hsegs
    have hs : inRangeSeg s := hsegs s (List.mem_cons_self s rest)
    obtain ⟨hdec, _, hoff1, hgc1⟩ :=
      encodeSegment_roundtrip off s gl hoff g0 hg0 ⟨hg0a, hg0b⟩ hs
    have hshift := decodeSegment_shift off s gl sOff nOff hoff g0 hg0 hs
    obtain ⟨g, hg, hga, hgb⟩ := hs.2.2.2.2.2.2.2
    have hgc1s : (encodeSegment off s).1.generatedColumn = some (g - 1) := by
      rw [hgc1, hg]
      rfl
    have ihdec :=
      ih (encodeSegment off s).1 gl (g - 1) sOff nOff lOff applyB hoff1 hgc1s
        (by omega) (by omega) (fun t ht => hsegs t (List.mem_cons_of_mem s ht))
    have henc : encodeSegmentsGo off (s :: rest)
        = ((encodeSegmentsGo (encodeSegment off s).1 rest).1,
           (encodeSegment off s).2 :: (encodeSegmentsGo (encodeSegment off s).1 rest).2) := rfl
    rw [henc]
    have hstep : decodeRawSegments lOff applyB
        { off with
            generatedLine := gl
            sourceIndex := off.sourceIndex + sOff
            nameIndex := off.nameIndex + nOff }
        ((encodeSegment off s).2 :: (encodeSegmentsGo (encodeSegment off s).1 rest).2)
        = match decodeVLQ (encodeSegment off s).2 with
          | .error e => .error e
          | .ok deltas =>
            let p := decodeSegment
              { off with
                  generatedLine := gl
                  sourceIndex := off.sourceIndex + sOff
                  nameIndex := off.nameIndex + nOff } deltas
            let seg := if applyB
              then { p.2 with generatedLine := p.2.generatedLine + lOff }
              else p.2
            match decodeRawSegments lOff applyB p.1
                (encodeSegmentsGo (encodeSegment off s).1 rest).2 with
            | .error e => .error e
            | .ok q => .ok (q.1, seg :: q.2) := rfl
    rw [hstep, hdec]
    dsimp only
    rw [hshift]
    dsimp only
    rw [ihdec]
    dsimp only
    rcases applyB with _ | _ <;> simp [shiftSeg]

/-- The frames appended by an offset decode of a canonical encoding:
frame `i` (0-based, shifted by `lineAppendOffset` frames already stored)
lands with its segments `shiftSeg`-adjusted and `generatedLine` set to the
1-based overall frame index plus the line shift. -/
def shiftLines (lineAppendOffset : Nat) (sOff nOff lshift : Int) :
    Nat → SourceMappingType → SourceMappingType
  | _, [] => []
  | i, none :: rest => none :: shiftLines lineAppendOffset sOff nOff lshift (i + 1) rest
  | i, some segs :: rest =>
    some (segs.map (shiftSeg sOff nOff ((lineAppendOffset : Int) + (i : Int) + 1 + lshift)))
      :: shiftLines lineAppendOffset sOff nOff lshift (i + 1) rest

theorem decodeMappingLinesGo_encode_shift (lines : SourceMappingType) :
    ∀ (offE : VLQOffset) (glD : Int) (gcD : Option Int) (acc : SourceMappingType)
      (i la : Nat) (sOff nOff lOff : Int) (applyB : Bool),
      inRangeOff4 offE → wfLines lines = true →
      decodeMappingLinesGo la lOff applyB
          { offE with
              generatedLine := glD
              generatedColumn := gcD
              sourceIndex := offE.sourceIndex + sOff
              nameIndex := offE.nameIndex + nOff } acc i
          (encodeSourceMappingGo offE lines)
        = (.ok (), acc ++ shiftLines la sOff nOff (if applyB then lOff else 0) i lines) := by
  induction lines with
  | nil =>
    intro offE glD gcD acc i la sOff nOff lOff applyB _ _
    simp [encodeSourceMappingGo, decodeMappingLinesGo, shiftLines]
  | cons fr rest ih =>
    intro offE glD gcD acc i la sOff nOff lOff applyB hoff hwf
    rw [wfLines, List.all_cons, Bool.and_eq_true] at hwf
    rcases fr with _ | segs
    · have henc : encodeSourceMappingGo offE (none :: rest)
          = [] :: encodeSourceMappingGo { offE with generatedColumn := some 0 } rest := rfl
      rw [henc]
      have hstep : decodeMappingLinesGo la lOff applyB
            { offE with
                generatedLine := glD
                generatedColumn := gcD
                sourceIndex := offE.sourceIndex + sOff
                nameIndex := offE.nameIndex + nOff } acc i
            ([] :: encodeSourceMappingGo { offE with generatedColumn := some 0 } rest)
          = decodeMappingLinesGo la lOff applyB
            { offE with
                generatedLine := glD
                generatedColumn := gcD
                sourceIndex := offE.sourceIndex + sOff
                nameIndex := offE.nameIndex + nOff } (acc ++ [none]) (i + 1)
            (encodeSourceMappingGo { offE with generatedColumn := some 0 } rest) := rfl
      rw [hstep]
      have hoff2 : inRangeOff4 { offE with generatedColumn := some 0 } := hoff
      have hrec := ih { offE with generatedColumn := some 0 } glD gcD (acc ++ [none]) (i + 1)
        la sOff nOff lOff applyB hoff2 hwf.2
      rw [hrec]
      rw [shiftLines]
      simp only [List.append_assoc, List.cons_append, List.nil_append]
    · have hwseg := hwf.1
      rw [Bool.and_eq_true] at hwseg
      have hsegs_ne : segs ≠ [] := by
        intro hcon
        rw [hcon] at hwseg
        simp at hwseg
      have hsegs_rng : ∀ s ∈ segs, inRangeSeg s := by
        intro s hsmem
        exact inRangeSeg_of_B s (by
          have := hwseg.2
          rw [List.all_eq_true] at this
          exact this s hsmem)
      have henc : encodeSourceMappingGo offE (some segs :: rest)
          = jsJoin ',' (encodeSegmentsGo { offE with generatedColumn := some 0 } segs).2
            :: encodeSourceMappingGo
                (encodeSegmentsGo { offE with generatedColumn := some 0 } segs).1 rest := rfl
      rw [henc]
      rcases hsegs_split : segs with _ | ⟨s0, srest⟩
      · exact absurd hsegs_split hsegs_ne
      rw [← hsegs_split]
      have hparts : (encodeSegmentsGo { offE with generatedColumn := some 0 } segs).2
          = (encodeSegment { offE with generatedColumn := some 0 } s0).2
            :: (encodeSegmentsGo
                  (encodeSegment { offE with generatedColumn := some 0 } s0).1 srest).2 := by
        rw [hsegs_split]
        rfl
      have hline_ne : jsJoin ','
          (encodeSegmentsGo { offE with generatedColumn := some 0 } segs).2 ≠ [] := by
        rw [hparts]
        exact jsJoin_cons_ne_nil ',' _ _ (encodeSegment_ne_nil _ _)
      have hline_empty : (jsJoin ','
          (encodeSegmentsGo { offE with generatedColumn := some 0 } segs).2).isEmpty
            = false := by
        rcases hj : jsJoin ','
            (encodeSegmentsGo { offE with generatedColumn := some 0 } segs).2 with _ | ⟨c, cs⟩
        · exact absurd hj hline_ne
        · rfl
      have hsplit : jsSplit ','
          (jsJoin ',' (encodeSegmentsGo { offE with generatedColumn := some 0 } segs).2)
          = (encodeSegmentsGo { offE with generatedColumn := some 0 } segs).2 := by
        refine jsSplit_jsJoin ',' _ (by rw [hparts]; exact List.cons_ne_nil _ _) ?_
        intro p hp hcomma
        have hchars := (encodeSegmentsGo_parts segs _ p hp).1 ',' hcomma
        exact (by decide : (',' : Char) ∉ BASE64) hchars
      have hdec :=
        decodeRawSegments_encodeSegmentsGo_shift segs { offE with generatedColumn := some 0 }
          ((la : Int) + (i : Int)) 0 sOff nOff lOff applyB hoff rfl (by omega) (by omega)
          hsegs_rng
      have hstep : decodeMappingLinesGo la lOff applyB
            { offE with
                generatedLine := glD
                generatedColumn := gcD
                sourceIndex := offE.sourceIndex + sOff
                nameIndex := offE.nameIndex + nOff } acc i
            (jsJoin ',' (encodeSegmentsGo { offE with generatedColumn := some 0 } segs).2
              :: encodeSourceMappingGo
                  (encodeSegmentsGo { offE with generatedColumn := some 0 } segs).1 rest)
          = if (jsJoin ','
                (encodeSegmentsGo { offE with generatedColumn := some 0 } segs).2).isEmpty then
              decodeMappingLinesGo la lOff applyB
                { offE with
                    generatedLine := glD
                    generatedColumn := gcD
                    sourceIndex := offE.sourceIndex + sOff
                    nameIndex := offE.nameIndex + nOff } (acc ++ [none]) (i + 1)
                (encodeSourceMappingGo
                  (encodeSegmentsGo { offE with generatedColumn := some 0 } segs).1 rest)
            else
              match decodeRawSegments lOff applyB
                  ({ offE with generatedColumn := some 0, generatedLine := (la : Int) + (i : Int), sourceIndex := offE.sourceIndex + sOff, nameIndex := offE.nameIndex + nOff })
                  (jsSplit ','
                    (jsJoin ','
                      (encodeSegmentsGo { offE with generatedColumn := some 0 } segs).2)) with
              | .error e => (.error (lineErrMsg i e), acc)
              | .ok p =>
                decodeMappingLinesGo la lOff applyB p.1 (acc ++ [some p.2]) (i + 1)
                  (encodeSourceMappingGo
                    (encodeSegmentsGo { offE with generatedColumn := some 0 } segs).1 rest) := rfl
      rw [hstep, hline_empty, hsplit]
      simp only [Bool.false_eq_true, if_false]
      rw [hdec]
      dsimp only
      rw [ih (encodeSegmentsGo { offE with generatedColumn := some 0 } segs).1
        ((la : Int) + (i : Int))
        (encodeSegmentsGo { offE with generatedColumn := some 0 } segs).1.generatedColumn
        _ (i + 1) la sOff nOff lOff applyB
        (by
          obtain ⟨_, ho, _⟩ := decodeRawSegments_encodeSegmentsGo segs
            { offE with generatedColumn := some 0 } ((la : Int) + (i : Int)) 0 hoff rfl
            (by omega) (by omega) hsegs_rng
          exact ho) hwf.2]
      rw [shiftLines]
      simp only [List.append_assoc, List.cons_append, List.nil_append]

/-- C3, counterexample: `concat` double-shifts `generatedLine`.  With `A`
and `B` both one-frame maps from `"AAAA"` (so `B`'s only segment sits at
`generatedLine 1` and `|A.generated_lines| = 1`), the composed store holds
`B`'s segment at `generatedLine 3` — both the already-stored frame count
and `generatedLineCount` are added — and contains no segment at the
claimed `generatedLine 2`. -/
theorem concat_double_shift_counterexample :
    (SourceService.create ⟨3, none, none, some [], [['a']], none, "AAAA".data⟩).map
        (fun svcA =>
          ((svcA.concat1 ⟨3, none, none, some [], [['b']], none, "AAAA".data⟩).1,
           (svcA.concat1 ⟨3, none, none, some [], [['b']], none, "AAAA".data⟩).2.mappingsService.lines))
      = .ok (.ok (),
          [some [⟨1, 1, none, 0, 1, some 1⟩], some [⟨1, 1, none, 1, 3, some 1⟩]]) ∧
    (SourceService.create ⟨3, none, none, some [], [['b']], none, "AAAA".data⟩).map
        (fun svcB => svcB.mappingsService.lines)
      = .ok [some [⟨1, 1, none, 0, 1, some 1⟩]] ∧
    getMappingLineCount ("AAAA".data) = 1 ∧
    (⟨1, 1, none, 1, 2, some 1⟩ : Segment) ∉
      storeSegments [some [⟨1, 1, none, 0, 1, some 1⟩], some [⟨1, 1, none, 1, 3, some 1⟩]] := by
  decide

theorem decodeString_of_encode (lines : SourceMappingType) (Blines : SourceMappingType)
    (sOff nOff lOff : Int) (hwf : wfLines Blines = true)
    (hne : encodeSourceMapping Blines ≠ []) :
    decodeSourceMappingString lines (encodeSourceMapping Blines) nOff sOff lOff
      = (.ok (), lines ++ shiftLines lines.length sOff nOff lOff 0 Blines) := by
  have hBne : Blines ≠ [] := by
    intro hcon
    rw [hcon] at hne
    exact hne rfl
  unfold decodeSourceMappingString
  rw [validate_encodeSourceMapping _ hne]
  simp only [Bool.not_true, Bool.false_eq_true, if_false]
  rw [jsSplit_encodeSourceMapping Blines hBne]
  have hco : createOffset nOff sOff
      = { createOffset 0 0 with
            generatedLine := 0
            generatedColumn := some 0
            sourceIndex := (createOffset 0 0).sourceIndex + sOff
            nameIndex := (createOffset 0 0).nameIndex + nOff } := by
    simp [createOffset]
  rw [hco]
  rw [decodeMappingLinesGo_encode_shift Blines (createOffset 0 0) 0 (some 0) lines 0
    lines.length sOff nOff lOff (decide (lOff ≠ 0))
    (by unfold inRangeOff4 createOffset; norm_num) hwf]
  have hsh : (if decide (lOff ≠ 0) = true then lOff else 0) = lOff := by
    rcases eq_or_ne lOff 0 with rfl | h
    · simp
    · simp [h]
  rw [hsh]

/-- C3 (amended): what `A.concat(B)` actually stores.  Appending a map whose
`mappings` string canonically encodes the well-formed frames `Blines`
succeeds, and every segment of `B` lands in the composed store with
`sourceIndex` shifted by `|A.sources|` and a present `nameIndex` by
`|A.names|` as claimed — but `generatedLine` becomes the 1-based overall
frame index (`|A.stored_frames| + i + 1`) *plus* `A.generatedLineCount`:
the already-stored frame count and the line offset are both applied, a
double shift (see the counterexample), not the single claimed
`gl + |A.generated_lines|`.  The generated-line count grows by `B`'s frame
count. -/
theorem concat1_composition (svcA : SourceService) (Blines : SourceMappingType)
    (Bversion : Int) (Bnames Bsources : List (List Char))
    (hwf : wfLines Blines = true) (hne : encodeSourceMapping Blines ≠ []) :
    (svcA.concat1 ⟨Bversion, none, none, some Bnames, Bsources, none,
        encodeSourceMapping Blines⟩).1 = .ok () ∧
    (svcA.concat1 ⟨Bversion, none, none, some Bnames, Bsources, none,
        encodeSourceMapping Blines⟩).2.mappingsService.lines
      = svcA.mappingsService.lines
        ++ shiftLines svcA.mappingsService.lines.length
            ((svcA.sourceMap.sources.length : Nat) : Int)
            (((svcA.sourceMap.names.getD []).length : Nat) : Int)
            ((svcA.generatedLineCount : Nat) : Int) 0 Blines ∧
    (svcA.concat1 ⟨Bversion, none, none, some Bnames, Bsources, none,
        encodeSourceMapping Blines⟩).2.generatedLineCount
      = svcA.generatedLineCount + getMappingLineCount (encodeSourceMapping Blines) := by
  have hemp : (encodeSourceMapping Blines).isEmpty = false := by
    rcases hj : encodeSourceMapping Blines with _ | ⟨c, cs⟩
    · exact absurd hj hne
    · rfl
  have hdecode := decodeString_of_encode svcA.mappingsService.lines Blines
    ((svcA.sourceMap.sources.length : Nat) : Int)
    (((svcA.sourceMap.names.getD []).length : Nat) : Int)
    ((svcA.generatedLineCount : Nat) : Int) hwf hne
  unfold SourceService.concat1 SourceService.appendSourceMap normalizeSourceMap
  dsimp only
  rw [hemp]
  dsimp only [MappingService.decodeString]
  rw [hdecode]
  exact ⟨rfl, rfl, rfl⟩

/-- C3, witness: the amended composition law applied to the concrete `A`
(one `"AAAA"` frame, one source, no names) and the canonical one-frame `B`;
the appended frame is `B`'s segment with `sourceIndex + 1` and
`generatedLine 1 + 0 + 1 + 1 = 3`. -/
theorem concat1_composition_witness :
    wfLines [some [⟨1, 1, none, 0, 1, some 1⟩]] = true ∧
    encodeSourceMapping [some [⟨1, 1, none, 0, 1, some 1⟩]] ≠ [] ∧
    ((⟨⟨3, none, none, some [], [['a']], none, "AAAA".data⟩,
       ⟨[some [⟨1, 1, none, 0, 1, some 1⟩]], ⟨0, 0, 0⟩⟩, 1⟩ : SourceService).concat1
        ⟨3, none, none, some [], [['b']], none,
          encodeSourceMapping [some [⟨1, 1, none, 0, 1, some 1⟩]]⟩).2.mappingsService.lines
      = [some [⟨1, 1, none, 0, 1, some 1⟩]]
        ++ shiftLines 1 1 0 1 0 [some [⟨1, 1, none, 0, 1, some 1⟩]] :=
  ⟨by decide, by decide,
    (concat1_composition
      ⟨⟨3, none, none, some [], [['a']], none, "AAAA".data⟩,
       ⟨[some [⟨1, 1, none, 0, 1, some 1⟩]], ⟨0, 0, 0⟩⟩, 1⟩
      [some [⟨1, 1, none, 0, 1, some 1⟩]] 3 [] [['b']] (by decide) (by decide)).2.1⟩
